import Mathlib

/-!
Verification of the packed street-trie builder
(`src/trie/build_street_trie.py` of nielstron/local-street-db).

The Python source is shallowly embedded: dict-based trie nodes become the
`Trie`/`Edges` inductive pair (the reserved `TERMINAL_KEY` entry becomes the
separate `term` field, which is faithful because every source traversal either
skips the terminal key or reads it separately), Python lists become `List`,
floats become `ℚ` (all coordinate arithmetic performed by the builder is exact
decimal arithmetic), machine integers become `ℕ`/`ℤ` with explicit `% 2^w`
where overflow matters, and code paths that raise become `Option`.
Python dicts preserve insertion order, so dicts used as ordered tables are
embedded as association lists with `setdefault`-style append-at-end update.
-/

namespace StreetDB

/-- A location entry `(lon, lat, node_idx, city_idx, kind_byte)`,
the 5-tuple appended to the `locations` list (source line 64). -/
abbrev Loc : Type := ℚ × ℚ × ℕ × ℕ × ℕ

/-- Association-list lookup, mirroring Python `dict.get` on an
insertion-ordered dict. -/
def alookup {α β : Type} [DecidableEq α] : List (α × β) → α → Option β
  | [], _ => none
  | (k, v) :: rest, key => if k = key then some v else alookup rest key

/-- Association-list update: replace the value at an existing key in place,
append at the end if absent (Python dict assignment). -/
def aset {α β : Type} [DecidableEq α] : List (α × β) → α → β → List (α × β)
  | [], key, v => [(key, v)]
  | (k, w) :: rest, key, v =>
    if k = key then (k, v) :: rest else (k, w) :: aset rest key v

mutual
/-- A trie node: optional terminal value list (the `TERMINAL_KEY` entry of the
source's dict) and the ordered edge map. -/
inductive Trie where
  | node : Option (List ℕ) → Edges → Trie
inductive Edges where
  | nil : Edges
  | cons : List Char → Trie → Edges → Edges
end

/-- The empty trie `{}`. -/
def Trie.empty : Trie := .node none .nil

/-- Terminal list of a node: `trie.get(TERMINAL_KEY, [])`. -/
def Trie.termList : Trie → Option (List ℕ)
  | .node t _ => t

/-- Edge map of a node. -/
def Trie.edges : Trie → Edges
  | .node _ es => es

/-- Find the child reached by an edge label (`dict` lookup among edge keys). -/
def findEdge : Edges → List Char → Option Trie
  | .nil, _ => none
  | .cons k c rest, lbl => if k = lbl then some c else findEdge rest lbl

/-- Replace the child at an existing edge label in place, or append a new edge
at the end (Python dict assignment / `setdefault`). -/
def setEdge : Edges → List Char → Trie → Edges
  | .nil, lbl, t => .cons lbl t .nil
  | .cons k c rest, lbl, t =>
    if k = lbl then .cons k t rest else .cons k c (setEdge rest lbl t)

/-- The list of edge labels of an edge map, in dict order. -/
def Edges.labels : Edges → List (List Char)
  | .nil => []
  | .cons k _ rest => k :: labels rest

/-- The edge map as a list of (label, child) pairs, in dict order. -/
def Edges.toList : Edges → List (List Char × Trie)
  | .nil => []
  | .cons k c rest => (k, c) :: toList rest

/-- Build an edge map from a list of (label, child) pairs. -/
def Edges.ofList : List (List Char × Trie) → Edges
  | [] => .nil
  | (k, c) :: rest => .cons k c (Edges.ofList rest)

/-- `insert_trie` (source lines 39-43): descend one character at a time
(Python `for ch in key` iterates code points), creating child nodes with
`setdefault`, then append `index` to the terminal list of the final node. -/
def insert_trie : Trie → List Char → ℕ → Trie
  | .node term es, [], index => .node (some ((term.getD []) ++ [index])) es
  | .node term es, ch :: rest, index =>
    let child := (findEdge es [ch]).getD Trie.empty
    .node term (setEdge es [ch] (insert_trie child rest index))
termination_by structural _ key => key

/-- The while-loop of `compress_trie` (source lines 151-158): while the
compressed child has no terminal and exactly one outgoing edge, append that
edge's label to the merged key and splice the grandchild in. -/
def mergeChain : List Char → Trie → List Char × Trie
  | k, .node none (.cons k2 c2 .nil) => mergeChain (k ++ k2) c2
  | k, t => (k, t)

mutual
/-- `compress_trie` (source lines 140-165): recursively compress every child,
then merge linear chains via `mergeChain`; the terminal list stays attached. -/
def compress_trie : Trie → Trie
  | .node term es => .node term (compressEdges es)
termination_by structural t => t
/-- The `for key, child in trie.items()` loop of `compress_trie`, in dict
order. -/
def compressEdges : Edges → Edges
  | .nil => .nil
  | .cons k c rest =>
    let kc := mergeChain k (compress_trie c)
    Edges.cons kc.1 kc.2 (compressEdges rest)
termination_by structural e => e
end

/-- Traverse an (uncompressed) trie along a key, one character per edge, and
return the terminal list at the reached node (the test helper `lookup_trie`
restricted to single-character edges). -/
def trieLookup : Trie → List Char → Option (List ℕ)
  | .node term _, [] => term
  | .node _ es, ch :: rest =>
    match findEdge es [ch] with
    | some child => trieLookup child rest
    | none => none
termination_by structural _ key => key

/-- `add_location_entry` (source lines 46-65): dedup the full 5-tuple through
`location_index`, appending a fresh entry when absent, then insert the
resulting index into the trie under `name`. Returns the updated
(trie, locations, location_index). -/
def add_location_entry (trie : Trie) (name : List Char) (lon lat : ℚ)
    (node_idx city_idx kind_byte : ℕ) (locations : List Loc)
    (location_index : List (Loc × ℕ)) :
    Trie × List Loc × List (Loc × ℕ) :=
  if name = [] then (trie, locations, location_index)
  else
    let loc_key : Loc := (lon, lat, node_idx, city_idx, kind_byte)
    match alookup location_index loc_key with
    | some index => (insert_trie trie name index, locations, location_index)
    | none =>
      let index := locations.length
      (insert_trie trie name index, locations ++ [loc_key],
        location_index ++ [(loc_key, index)])

/-! ### String normalisation and shard keys -/

/-- Fragment of the Unicode NFKD decomposition table used by
`unicodedata.normalize("NFKD", ·)`: characters with no decomposition map to
themselves; the precomposed Latin letters appearing in this development's
inputs decompose into base letter plus combining mark.  (The full table is
external data of the Python runtime, not part of the repository; this fragment
agrees with it on every character used below.) -/
def nfkdChar (c : Char) : List Char :=
  if c = 'à' then ['a', Char.ofNat 0x300]
  else if c = 'á' then ['a', Char.ofNat 0x301]
  else if c = 'â' then ['a', Char.ofNat 0x302]
  else if c = 'ä' then ['a', Char.ofNat 0x308]
  else if c = 'è' then ['e', Char.ofNat 0x300]
  else if c = 'é' then ['e', Char.ofNat 0x301]
  else if c = 'ö' then ['o', Char.ofNat 0x308]
  else if c = 'ü' then ['u', Char.ofNat 0x308]
  else if c = 'À' then ['A', Char.ofNat 0x300]
  else if c = 'É' then ['E', Char.ofNat 0x301]
  else [c]

/-- `unicodedata.category(ch) == "Mn"` on the combining diacritical marks
block U+0300..U+036F (every character of that block has category Mn; no other
character produced by `nfkdChar` does). -/
def isMn (c : Char) : Bool := 0x300 ≤ c.toNat && c.toNat ≤ 0x36F

/-- `str.lower` on a single character, ASCII fragment (every character reaching
this point in the inputs considered is ASCII after mark stripping). -/
def pyLowerChar (c : Char) : Char :=
  if 'A' ≤ c && c ≤ 'Z' then Char.ofNat (c.toNat + 32) else c

/-- `str.isalnum` on a single character, ASCII fragment. -/
def pyIsAlnum (c : Char) : Bool :=
  ('0' ≤ c && c ≤ '9') || ('a' ≤ c && c ≤ 'z') || ('A' ≤ c && c ≤ 'Z')

/-- `str.isascii` on a single character. -/
def pyIsAscii (c : Char) : Bool := c.toNat ≤ 0x7F

/-- `normalize_name` (source lines 261-267): NFKD-decompose, drop combining
marks (category Mn), lowercase, keep only alphanumeric code points. -/
def normalize_name (name : List Char) : List Char :=
  let decomposed := (name.map nfkdChar).flatten
  let stripped := decomposed.filter (fun ch => !isMn ch)
  let lowered := stripped.map pyLowerChar
  lowered.filter pyIsAlnum

/-- `shard_key_for_name` (source lines 246-258): `none` when `shard_len ≤ 0`
or the normalised name is empty; otherwise the first `shard_len` code points
of the normalised name with every non-ASCII-or-non-alphanumeric character
replaced by `'_'`, right-padded with `'_'` to exactly `shard_len` code points.
`shard_len` is a Python `int`, hence `ℤ`. -/
def shard_key_for_name (name : List Char) (shard_len : ℤ) : Option (List Char) :=
  if shard_len ≤ 0 then none
  else
    let normalized_name := normalize_name name
    if normalized_name = [] then none
    else
      let pre := normalized_name.take shard_len.toNat
      let normalized := pre.map (fun ch => if pyIsAscii ch && pyIsAlnum ch then ch else '_')
      some (normalized ++ List.replicate (shard_len.toNat - normalized.length) '_')

/-! ### Kind bytes and the shard builder -/

/-- `KIND_TO_BYTE` (source lines 11-23). -/
def KIND_TO_BYTE : List (List Char × ℕ) :=
  [("street".toList, 0), ("airport".toList, 1), ("train_station".toList, 2),
   ("bus_stop".toList, 3), ("ferry_terminal".toList, 4), ("university".toList, 5),
   ("museum".toList, 6), ("civic_building".toList, 7), ("sight".toList, 8),
   ("city".toList, 9), ("country".toList, 10)]

/-- `DEFAULT_KIND_BYTE` (source line 24). -/
def DEFAULT_KIND_BYTE : ℕ := 15

/-- `COUNTRY_KIND_BYTE = KIND_TO_BYTE["country"]` (source line 26). -/
def COUNTRY_KIND_BYTE : ℕ := 10

/-- `KIND_TO_BYTE.get(kind_str, DEFAULT_KIND_BYTE)` after lowercasing
(source lines 328-329). -/
def kindByteOf (kind : List Char) : ℕ :=
  (alookup KIND_TO_BYTE (kind.map pyLowerChar)).getD DEFAULT_KIND_BYTE

/-- One input CSV row, modelled after field extraction: the string fields are
the stripped cell contents, and a coordinate is `none` when `float(...)` would
raise (such a row is skipped).  CSV reading itself is I/O outside the model. -/
structure Row where
  streetname : List Char
  kind : List Char
  center_lon : Option ℚ
  center_lat : Option ℚ
  city_place_node : List Char
  city_place_city : List Char

/-- One row of the loaded countries table `(code, name, lon, lat)`
(source line 92): code already uppercased and name non-empty, as
`load_countries` guarantees. -/
structure Country where
  code : List Char
  name : List Char
  lon : ℚ
  lat : ℚ

/-- The per-shard working state created at source lines 305-313. -/
structure Shard where
  locations : List Loc
  location_index : List (Loc × ℕ)
  node_names : List (List Char)
  node_index : List (List Char × ℕ)
  city_names : List (List Char)
  city_index : List (List Char × ℕ)
  trie : Trie

/-- The freshly created shard `{"locations": [], ..., "node_names": [""], ...}`. -/
def emptyShard : Shard :=
  ⟨[], [], [[]], [([], 0)], [[]], [([], 0)], Trie.empty⟩

/-- Body of the row loop of `build_trie_shards` (source lines 290-340). -/
def shardRowStep (shard_len : ℤ) (shards : List (List Char × Shard)) (row : Row) :
    List (List Char × Shard) :=
  if row.streetname = [] then shards
  else
    match shard_key_for_name row.streetname shard_len with
    | none => shards
    | some shard_key =>
      match row.center_lon, row.center_lat with
      | some lon, some lat =>
        let shard := (alookup shards shard_key).getD emptyShard
        let node := row.city_place_node
        let (node_names, node_index) :=
          if alookup shard.node_index node = none then
            (shard.node_names ++ [node], shard.node_index ++ [(node, shard.node_names.length)])
          else (shard.node_names, shard.node_index)
        let node_idx := (alookup node_index node).getD 0
        let city := row.city_place_city
        let (city_names, city_index) :=
          if alookup shard.city_index city = none then
            (shard.city_names ++ [city], shard.city_index ++ [(city, shard.city_names.length)])
          else (shard.city_names, shard.city_index)
        let city_idx := (alookup city_index city).getD 0
        let kind_byte := kindByteOf row.kind
        let (trie, locations, location_index) :=
          add_location_entry shard.trie row.streetname lon lat node_idx city_idx
            kind_byte shard.locations shard.location_index
        aset shards shard_key
          ⟨locations, location_index, node_names, node_index, city_names, city_index, trie⟩
      | _, _ => shards

/-- Body of the countries loop of `build_trie_shards` (source lines 344-394):
route by the shard key of the country *name*; within that shard, add the code
to the node table (if non-empty), the name to the city table, then insert a
country-kind entry under the name and, if the code is non-empty, a second one
under the code. -/
def shardCountryStep (shard_len : ℤ) (shards : List (List Char × Shard))
    (c : Country) : List (List Char × Shard) :=
  match shard_key_for_name c.name shard_len with
  | none => shards
  | some shard_key =>
    let shard := (alookup shards shard_key).getD emptyShard
    let (node_names, node_index) :=
      if c.code ≠ [] ∧ alookup shard.node_index c.code = none then
        (shard.node_names ++ [c.code], shard.node_index ++ [(c.code, shard.node_names.length)])
      else (shard.node_names, shard.node_index)
    let node_idx := (alookup node_index c.code).getD 0
    let (city_names, city_index) :=
      if alookup shard.city_index c.name = none then
        (shard.city_names ++ [c.name], shard.city_index ++ [(c.name, shard.city_names.length)])
      else (shard.city_names, shard.city_index)
    let city_idx := (alookup city_index c.name).getD 0
    let (trie1, locations1, location_index1) :=
      add_location_entry shard.trie c.name c.lon c.lat node_idx city_idx
        COUNTRY_KIND_BYTE shard.locations shard.location_index
    let (trie2, locations2, location_index2) :=
      if c.code ≠ [] then
        add_location_entry trie1 c.code c.lon c.lat node_idx city_idx
          COUNTRY_KIND_BYTE locations1 location_index1
      else (trie1, locations1, location_index1)
    aset shards shard_key
      ⟨locations2, location_index2, node_names, node_index, city_names, city_index, trie2⟩

/-- `build_trie_shards` (source lines 270-400): fold the row loop over the
input rows, then the countries loop over the countries table.  (The final
`pop` of the three dedup maps only removes bookkeeping; the model keeps the
full `Shard` record.) -/
def build_trie_shards (rows : List Row) (shard_len : ℤ) (countries : List Country) :
    List (List Char × Shard) :=
  let afterRows := rows.foldl (shardRowStep shard_len) []
  countries.foldl (shardCountryStep shard_len) afterRows

/-! ### Varints, UTF-8, sorting and the front-coded name tables -/

/-- `encode_varint` (source lines 403-414): unsigned base-128 varint,
little-endian groups, continuation bit 0x80. -/
def encode_varint (v : ℕ) : List ℕ :=
  let byte := v % 128
  let rest := v / 128
  if rest = 0 then [byte] else (byte + 128) :: encode_varint rest
termination_by v
decreasing_by omega

/-- Varint decoder, following the spec's reading description (continuation
while the MSB is set); `none` on truncated input. -/
def decode_varint : List ℕ → Option (ℕ × List ℕ)
  | [] => none
  | b :: rest =>
    if b < 128 then some (b, rest)
    else
      match decode_varint rest with
      | none => none
      | some (v, r) => some (b % 128 + 128 * v, r)

/-- UTF-8 encoding of one code point (`str.encode("utf-8")`, per character). -/
def utf8Bytes (c : Char) : List ℕ :=
  let n := c.toNat
  if n < 0x80 then [n]
  else if n < 0x800 then [0xC0 + n / 64, 0x80 + n % 64]
  else if n < 0x10000 then [0xE0 + n / 4096, 0x80 + n / 64 % 64, 0x80 + n % 64]
  else [0xF0 + n / 262144, 0x80 + n / 4096 % 64, 0x80 + n / 64 % 64, 0x80 + n % 64]

/-- UTF-8 bytes of a string. -/
def strBytes (s : List Char) : List ℕ := (s.map utf8Bytes).flatten

/-- Stable insertion of one element: placed before the first element it is
`le`-below-or-equal-to from the left.  Used to realise Python's stable sort. -/
def insortBy {α : Type} (le : α → α → Bool) (x : α) : List α → List α
  | [] => [x]
  | y :: ys => if le x y then x :: y :: ys else y :: insortBy le x ys

/-- Stable sort.  Python's `list.sort` is stable, and for a total preorder the
stable sorted rearrangement is unique, so this insertion sort returns exactly
the list Python's sort returns. -/
def pySort {α : Type} (le : α → α → Bool) (l : List α) : List α :=
  l.foldr (insortBy le) []

/-- Python string `≤`: lexicographic by code point. -/
def leChars : List Char → List Char → Bool
  | [], _ => true
  | _ :: _, [] => false
  | a :: as, b :: bs => if a = b then leChars as bs else decide (a < b)

/-- `reindex_names` (source lines 417-424): stable-sort `(old index, name)`
pairs by name, return the sorted names and the `old → new` permutation. -/
def reindex_names (names : List (List Char)) : List (List Char) × List ℕ :=
  let indexed := pySort (fun a b => leChars a.2 b.2) names.enum
  let new_names := indexed.map Prod.snd
  let old_to_new :=
    indexed.enum.foldl (fun acc p => acc.set p.2.1 p.1)
      (List.replicate names.length 0)
  (new_names, old_to_new)

/-- Number of leading positions where the two byte strings agree
(the `while prefix_len < max_prefix and ...` loop of source lines 433-436,
clamp to the shorter length included). -/
def commonPrefixLen : List ℕ → List ℕ → ℕ
  | a :: as, b :: bs => if a = b then 1 + commonPrefixLen as bs else 0
  | _, _ => 0

/-- The per-entry loop of `encode_prefix_table` (source lines 431-441), with
`prev` the previous entry's bytes. -/
def encodeEntries (prev : List ℕ) : List (List ℕ) → List ℕ
  | [] => []
  | n :: ns =>
    let prefix_len := commonPrefixLen prev n
    let suffix := n.drop prefix_len
    encode_varint prefix_len ++ encode_varint suffix.length ++ suffix
      ++ encodeEntries n ns

/-- `encode_prefix_table` (source lines 427-442), applied to the UTF-8 bytes
of the names: varint count, then front-coded entries starting from `b""`. -/
def encode_prefix_table (names : List (List Char)) : List ℕ :=
  encode_varint names.length ++ encodeEntries [] (names.map strBytes)

/-- Front-coded table decoding as the spec describes it: for each entry take
`prefix_len` bytes of the previously decoded entry followed by the suffix
bytes. -/
def decodeEntries (prev : List ℕ) : ℕ → List ℕ → Option (List (List ℕ) × List ℕ)
  | 0, bytes => some ([], bytes)
  | count + 1, bytes =>
    match decode_varint bytes with
    | none => none
    | some (prefix_len, r1) =>
      match decode_varint r1 with
      | none => none
      | some (suffix_len, r2) =>
        if suffix_len ≤ r2.length then
          let name := prev.take prefix_len ++ r2.take suffix_len
          match decodeEntries name count (r2.drop suffix_len) with
          | none => none
          | some (names, rest) => some (name :: names, rest)
        else none

/-- Full front-coded table decoder: read the entry count, then the entries. -/
def decode_prefix_table (bytes : List ℕ) : Option (List (List ℕ) × List ℕ) :=
  match decode_varint bytes with
  | none => none
  | some (count, rest) => decodeEntries [] count rest

/-! ### LOUDS encoding -/

mutual
/-- Number of nodes of a trie (for the BFS termination measure). -/
def sizeT : Trie → ℕ
  | .node _ es => 1 + sizeE es
termination_by structural t => t
/-- Total node count of the children of an edge map. -/
def sizeE : Edges → ℕ
  | .nil => 0
  | .cons _ c rest => sizeT c + sizeE rest
termination_by structural e => e
end

/-- `edges.sort(key=lambda item: item[0])` (source line 488): the node's
(label, child) pairs sorted by label. -/
def sortedEdges (t : Trie) : List (List Char × Trie) :=
  pySort (fun a b => leChars a.1 b.1) t.edges.toList

theorem insortBy_perm {α : Type} (le : α → α → Bool) (x : α) :
    ∀ l : List α, (insortBy le x l).Perm (x :: l) := by
  intro l
  induction l with
  | nil => simp [insortBy]
  | cons y ys ih =>
    simp only [insortBy]
    by_cases h : le x y
    · simp [h]
    · simp only [h, Bool.false_eq_true, if_false]
      exact (ih.cons y).trans (List.Perm.swap x y ys)

theorem pySort_perm {α : Type} (le : α → α → Bool) :
    ∀ l : List α, (pySort le l).Perm l := by
  intro l
  induction l with
  | nil => simp [pySort]
  | cons y ys ih =>
    simpa [pySort] using ((insortBy_perm le y (pySort le ys)).trans (ih.cons y))

theorem sum_sizeT_toList : ∀ es : Edges,
    ((Edges.toList es).map (fun p => sizeT p.2)).sum = sizeE es
  | .nil => by simp [Edges.toList, sizeE]
  | .cons k c rest => by
    simp [Edges.toList, sizeE, sum_sizeT_toList rest]

theorem sizeT_node : ∀ t : Trie, sizeT t = 1 + sizeE t.edges
  | .node term es => by simp [sizeT, Trie.edges]

theorem sum_sizeT_sortedEdges (t : Trie) :
    ((sortedEdges t).map (fun (p : List Char × Trie) => sizeT p.2)).sum
      = sizeE t.edges := by
  rw [← sum_sizeT_toList]
  exact ((pySort_perm _ _).map (fun (p : List Char × Trie) => sizeT p.2)).sum_eq

/-- The BFS loop of `build_louds` (source lines 478-494), processing the queue
front to back: per node, one `true` bit per outgoing edge in sorted label
order followed by one `false` delimiter; labels and terminal lists collected
in parallel; children enqueued. -/
def loudsAux : List Trie → List Bool × List (List Char) × List (List ℕ)
  | [] => ([], [], [])
  | t :: rest =>
    let es := sortedEdges t
    let next := loudsAux (rest ++ es.map Prod.snd)
    (List.replicate es.length true ++ [false] ++ next.1,
     es.map Prod.fst ++ next.2.1,
     (t.termList.getD []) :: next.2.2)
termination_by q => (q.map sizeT).sum
decreasing_by
  simp only [List.map_append, List.sum_append, List.map_map, List.map_cons,
    List.sum_cons]
  have h2 : (List.map (sizeT ∘ Prod.snd) (sortedEdges t)).sum = sizeE t.edges := by
    simpa [Function.comp] using sum_sizeT_sortedEdges t
  have h3 := sizeT_node t
  omega

/-- Little-endian byte value of up to 8 bits (bit `i` of the chunk contributes
`2^i`, realising `louds_bytes[i >> 3] |= 1 << (i & 7)`). -/
def bitsToByte (bits : List Bool) : ℕ :=
  bits.foldr (fun b acc => (if b then 1 else 0) + 2 * acc) 0

/-- Bit-packing of source lines 499-502: bit `i` lives in byte `i >> 3` at
position `i & 7`, i.e. consecutive chunks of 8 bits become little-endian
bytes, the final partial chunk zero-padded high. -/
def loudsBytes : List Bool → List ℕ
  | [] => []
  | b :: bits => bitsToByte ((b :: bits).take 8) :: loudsBytes ((b :: bits).drop 8)
termination_by bits => bits.length
decreasing_by simp; omega

/-- `build_louds` (source lines 472-504): returns
`(node_count, edge_count, bit_count, louds_bytes, edge_labels,
values_per_node)`. -/
def build_louds (t : Trie) :
    ℕ × ℕ × ℕ × List ℕ × List (List Char) × List (List ℕ) :=
  let r := loudsAux [t]
  (r.2.2.length, r.2.1.length, r.1.length, loudsBytes r.1, r.2.1, r.2.2)

/-- Number of set bits of a natural number. -/
def popcount (n : ℕ) : ℕ :=
  if n = 0 then 0 else n % 2 + popcount (n / 2)
termination_by n
decreasing_by omega

/-- Total number of set bits of a byte list. -/
def popcountBytes (l : List ℕ) : ℕ := (l.map popcount).sum

/-! ### Fixed-point coordinates -/

/-- Python `round` on an exact value: round-half-to-even. -/
def pyRound (q : ℚ) : ℤ :=
  let f := ⌊q⌋
  let r := q - f
  if r < 1/2 then f
  else if 1/2 < r then f + 1
  else if f % 2 = 0 then f else f + 1

/-- `int.to_bytes(3, "little", signed=True)`: three little-endian bytes of the
two's complement representation; `none` (an `OverflowError`) when the integer
does not fit in 24 signed bits. -/
def toBytes3LE (i : ℤ) : Option (List ℕ) :=
  if -(2 ^ 23) ≤ i ∧ i < 2 ^ 23 then
    let n := (i % (2 ^ 24)).toNat
    some [n % 256, n / 256 % 256, n / 65536]
  else none

/-- The coordinate encoding of `pack_trie` (source lines 557-560):
`int(round(x * scale))` written as 3 signed little-endian bytes. -/
def encodeCoord (x : ℚ) (scale : ℕ) : Option (List ℕ) :=
  toBytes3LE (pyRound (x * scale))

/-- Signed little-endian 24-bit decoding (reader side, from the spec's
"3 bytes little-endian two's complement"). -/
def decodeSigned24 (bs : List ℕ) : ℤ :=
  let n : ℤ := bs.getD 0 0 + 256 * bs.getD 1 0 + 65536 * bs.getD 2 0
  if n < 2 ^ 23 then n else n - 2 ^ 24

/-! ### Packing the value section and the full byte stream -/

/-- The `write_kind_nibble` closure of `pack_trie` (source lines 542-551),
acting on the `(out, pending)` state: the first nibble of a pair is held
pending (low nibble), the second completes the byte (high nibble) which is
appended to `out` immediately. -/
def writeKindNibble (out : List ℕ) (pending : Option ℕ) (kind_byte : ℕ) :
    List ℕ × Option ℕ :=
  let nibble := kind_byte % 16
  match pending with
  | none => (out, some nibble)
  | some p => (out ++ [p + 16 * nibble], none)

/-- Emission of a single value (source lines 556-563) after the tuple
destructuring `lon, lat, node_idx, city_idx, kind_byte = remapped[value]`:
3-byte signed lon and lat, varint node and city indices, then the kind
nibble; `none` on coordinate overflow. -/
def packValueLoc (scale : ℕ) (st : List ℕ × Option ℕ) : Loc → Option (List ℕ × Option ℕ)
  | (lon, lat, node_idx, city_idx, kind_byte) =>
    match encodeCoord lon scale, encodeCoord lat scale with
    | some lonB, some latB =>
      some (writeKindNibble (st.1 ++ lonB ++ latB ++ encode_varint node_idx
        ++ encode_varint city_idx) st.2 kind_byte)
    | _, _ => none

/-- Emission of the value with index `v` (source lines 556-563). -/
def packValue (remapped : List Loc) (scale : ℕ) (st : List ℕ × Option ℕ)
    (v : ℕ) : Option (List ℕ × Option ℕ) :=
  packValueLoc scale st (remapped.getD v (0, 0, 0, 0, 0))

/-- The inner `for value in values` loop of source lines 555-563. -/
def packNodeValues (remapped : List Loc) (scale : ℕ) :
    List ℕ → List ℕ × Option ℕ → Option (List ℕ × Option ℕ)
  | [], st => some st
  | v :: vs, st =>
    match packValue remapped scale st v with
    | none => none
    | some st' => packNodeValues remapped scale vs st'

/-- The outer `for values in values_per_node` loop of source lines 553-563:
varint value count, then the values. -/
def packValuesAux (remapped : List Loc) (scale : ℕ) :
    List (List ℕ) → List ℕ × Option ℕ → Option (List ℕ × Option ℕ)
  | [], st => some st
  | values :: rest, st =>
    match packNodeValues remapped scale values
        (st.1 ++ encode_varint values.length, st.2) with
    | none => none
    | some st' => packValuesAux remapped scale rest st'

/-- The whole value section of `pack_trie` (source lines 553-566), flushing a
trailing pending nibble as a final byte with zero high nibble. -/
def packValues (vals : List (List ℕ)) (remapped : List Loc) (scale : ℕ) :
    Option (List ℕ) :=
  match packValuesAux remapped scale vals ([], none) with
  | none => none
  | some (out, none) => some out
  | some (out, some p) => some (out ++ [p])

/-- Everything `pack_trie` (source lines 507-568) writes before the per-node
value blocks: magic, version 11, 3-byte scale, both reindexed front-coded name
tables, LOUDS counts and bits, and the length-prefixed edge labels. -/
def packHeader (node_names city_names : List (List Char)) (t : Trie)
    (scale : ℕ) : List ℕ :=
  let header := [83, 84, 82, 73, 11, scale % 256, scale / 256 % 256, scale / 65536]
  let tables := encode_prefix_table (reindex_names node_names).1
    ++ encode_prefix_table (reindex_names city_names).1
  let r := build_louds t
  header ++ tables ++ encode_varint r.1 ++ encode_varint r.2.2.1
    ++ r.2.2.2.1
    ++ encode_varint r.2.1
    ++ (r.2.2.2.2.1.map (fun lb => encode_varint (strBytes lb).length ++ strBytes lb)).flatten

/-- The location list with name indices remapped through the `old → new`
permutations (source lines 526-530). -/
def remapLocations (locations : List Loc) (node_ix city_ix : List ℕ) : List Loc :=
  locations.map (fun l =>
    (l.1, l.2.1, node_ix.getD l.2.2.1 0, city_ix.getD l.2.2.2.1 0, l.2.2.2.2))

/-- `pack_trie` (source lines 507-568).  `none` models the raised exceptions:
scale not fitting in 3 bytes, or a coordinate overflowing 24 signed bits. -/
def pack_trie (locations : List Loc) (node_names city_names : List (List Char))
    (t : Trie) (scale : ℕ) : Option (List ℕ) :=
  if 0xFFFFFF < scale then none
  else
    match packValues (build_louds t).2.2.2.2.2
        (remapLocations locations (reindex_names node_names).2
          (reindex_names city_names).2) scale with
    | none => none
    | some valueSection => some (packHeader node_names city_names t scale ++ valueSection)

/-! ### The spec's trailing-kind-stream layout (for the refinement claim) -/

/-- Modelled from the spec (§6 layout): the numeric fields of one value
*without* its kind nibble. -/
def specFieldsLoc (scale : ℕ) : Loc → Option (List ℕ)
  | (lon, lat, node_idx, city_idx, _) =>
    match encodeCoord lon scale, encodeCoord lat scale with
    | some lonB, some latB =>
      some (lonB ++ latB ++ encode_varint node_idx ++ encode_varint city_idx)
    | _, _ => none

/-- Modelled from the spec: the numeric fields of the value with index `v`. -/
def specValueFields (remapped : List Loc) (scale : ℕ) (v : ℕ) :
    Option (List ℕ) :=
  specFieldsLoc scale (remapped.getD v (0, 0, 0, 0, 0))

/-- Modelled from the spec: the concatenated numeric fields of one node's
value list. -/
def specFieldsList (remapped : List Loc) (scale : ℕ) : List ℕ → Option (List ℕ)
  | [] => some []
  | v :: vs =>
    match specValueFields remapped scale v, specFieldsList remapped scale vs with
    | some f, some r => some (f ++ r)
    | _, _ => none

/-- Modelled from the spec: the per-node value blocks with the kind nibbles
left out. -/
def specValueBlocks (remapped : List Loc) (scale : ℕ) :
    List (List ℕ) → Option (List ℕ)
  | [] => some []
  | values :: rest =>
    match specFieldsList remapped scale values, specValueBlocks remapped scale rest with
    | some f, some r => some (encode_varint values.length ++ f ++ r)
    | _, _ => none

/-- Modelled from the spec: nibble-pack a list of kind bytes two per byte, low
nibble first, trailing odd nibble flushed with zero high nibble. -/
def nibblePack : List ℕ → List ℕ
  | [] => []
  | [k] => [k % 16]
  | k1 :: k2 :: rest => (k1 % 16 + 16 * (k2 % 16)) :: nibblePack rest

/-- The kind byte of the value with index `v`. -/
def kindOf (remapped : List Loc) (v : ℕ) : ℕ :=
  (remapped.getD v (0, 0, 0, 0, 0)).2.2.2.2

/-- The kind bytes of the emitted values, in emission order. -/
def kindsOf (vals : List (List ℕ)) (remapped : List Loc) : List ℕ :=
  vals.flatten.map (kindOf remapped)

/-- Modelled from the spec (§6 layout): the value section with a contiguous
`kind_stream` section located after all per-node value blocks. -/
def packValuesSpec (vals : List (List ℕ)) (remapped : List Loc) (scale : ℕ) :
    Option (List ℕ) :=
  match specValueBlocks remapped scale vals with
  | none => none
  | some blocks => some (blocks ++ nibblePack (kindsOf vals remapped))

/-- Modelled from the spec: `pack_trie` with the spec's trailing-kind-stream
layout for the value section (identical header). -/
def pack_trie_spec (locations : List Loc) (node_names city_names : List (List Char))
    (t : Trie) (scale : ℕ) : Option (List ℕ) :=
  if 0xFFFFFF < scale then none
  else
    match packValuesSpec (build_louds t).2.2.2.2.2
        (remapLocations locations (reindex_names node_names).2
          (reindex_names city_names).2) scale with
    | none => none
    | some valueSection => some (packHeader node_names city_names t scale ++ valueSection)

/-! ## Claims -/

/-- **C4.** Inserting keys `"cat"@1, "car"@2, "dog"@3, "do"@4` into an empty
trie and applying `compress_trie` yields a root with exactly two edges
labelled `"ca"` and `"do"`; the node under `"ca"` has edges `"t"` and `"r"`
to nodes whose value lists are `[1]` and `[2]`; the node under `"do"` has
value list `[4]` and one edge `"g"` to a node with value list `[3]`. -/
theorem C4_compression_scenario :
    compress_trie
      ([("cat".toList, 1), ("car".toList, 2), ("dog".toList, 3), ("do".toList, 4)].foldl
        (fun t p => insert_trie t p.1 p.2) Trie.empty) =
    .node none (Edges.ofList
      [("ca".toList, .node none (Edges.ofList
          [("t".toList, .node (some [1]) .nil), ("r".toList, .node (some [2]) .nil)])),
       ("do".toList, .node (some [4])
          (Edges.ofList [("g".toList, .node (some [3]) .nil)]))]) := by
  rfl

/-- The four `add_location_entry` calls of the dedup-and-multiplicity
scenario: `(Main St, street, 1.0, 2.0, Node A, City A)` twice, then
`(Main St, street, 3.0, 4.0, Node B, City B)`, then
`(Second St, bus_stop, 5.0, 6.0, "", City C)`, with the node/city indices
the side tables assign (`Node A`→1, `City A`→1, `Node B`→2, `City B`→2,
`""`→0, `City C`→3). -/
def dedupScenario : Trie × List Loc × List (Loc × ℕ) :=
  let s1 := add_location_entry Trie.empty "Main St".toList 1 2 1 1
    (kindByteOf "street".toList) [] []
  let s2 := add_location_entry s1.1 "Main St".toList 1 2 1 1
    (kindByteOf "street".toList) s1.2.1 s1.2.2
  let s3 := add_location_entry s2.1 "Main St".toList 3 4 2 2
    (kindByteOf "street".toList) s2.2.1 s2.2.2
  add_location_entry s3.1 "Second St".toList 5 6 0 3
    (kindByteOf "bus_stop".toList) s3.2.1 s3.2.2

/-- **C5.** After the four `add_location_entry` calls the locations vector has
exactly three entries (full-5-tuple deduplication), the terminal value list at
key `"Main St"` is `[0, 0, 1]` (order preserved, the duplicate collapsed to a
repeated index), and the list at `"Second St"` is `[2]`, whose location entry
carries kind byte 3. -/
theorem C5_dedup_multiplicity :
    dedupScenario.2.1 = [(1, 2, 1, 1, 0), (3, 4, 2, 2, 0), (5, 6, 0, 3, 3)] ∧
    trieLookup dedupScenario.1 "Main St".toList = some [0, 0, 1] ∧
    trieLookup dedupScenario.1 "Second St".toList = some [2] ∧
    (dedupScenario.2.1.getD 2 (0, 0, 0, 0, 0)).2.2.2.2 = 3 := by
  refine ⟨rfl, rfl, rfl, rfl⟩

/-- The countries row `CH, Switzerland, 46.8, 8.2` as loaded by
`load_countries` (which returns `(code, name, lon, lat)`, so `lon = 8.2`,
`lat = 46.8`).  The coordinates are written as `mkRat` normal forms —
propositionally equal to `8.2` and `46.8`, see `C1_amended` — so that the
construction evaluates inside the kernel. -/
def chCountry : Country := ⟨"CH".toList, "Switzerland".toList, mkRat 41 5, mkRat 234 5⟩

/-- `build_trie_shards` with shard prefix length 3, no street rows and the
single country `CH, Switzerland`. -/
def chShards : List (List Char × Shard) := build_trie_shards [] 3 [chCountry]

/-- **C1, counterexample.** The claim asserts a shard keyed `"ch_"` holding an
entry reachable along `"CH"`.  In the code both country insertions are routed
by the shard key of the *name* (`shard_key = shard_key_for_name(name, ...)` at
source line 345 governs both `add_location_entry` calls), so the only shard
produced is `"swi"` and no `"ch_"` shard exists. -/
theorem C1_counterexample :
    alookup chShards "ch_".toList = none ∧
    chShards.map Prod.fst = ["swi".toList] := ⟨rfl, rfl⟩

/-- **C1, amended.** With shard prefix length 3 and the countries row
`(CH, Switzerland, 46.8, 8.2)`, `build_trie_shards` produces exactly one
shard, keyed `"swi"`; that shard's trie reaches the single deduplicated
LocationEntry (kind byte `10 = country`) both along the key `"Switzerland"`
and along the key `"CH"`. -/
theorem C1_amended :
    chShards.map Prod.fst = ["swi".toList] ∧
    ((alookup chShards "swi".toList).getD emptyShard).locations
      = [(8.2, 46.8, 1, 1, COUNTRY_KIND_BYTE)] ∧
    trieLookup ((alookup chShards "swi".toList).getD emptyShard).trie
      "Switzerland".toList = some [0] ∧
    trieLookup ((alookup chShards "swi".toList).getD emptyShard).trie
      "CH".toList = some [0] := by
  have h82 : (8.2 : ℚ) = mkRat 41 5 := by
    norm_num [Rat.mkRat_eq_divInt, Rat.divInt_eq_div]
  have h468 : (46.8 : ℚ) = mkRat 234 5 := by
    norm_num [Rat.mkRat_eq_divInt, Rat.divInt_eq_div]
  rw [h82, h468]
  refine ⟨rfl, rfl, rfl, rfl⟩

/-- **C9.** `shard_key_for_name` returns no key when `shard_len` is not
positive or the normalised name is empty; otherwise it returns exactly
`shard_len` code points, namely the first `shard_len` code points of
`normalize_name name` with every non-ASCII or non-alphanumeric character
replaced by `'_'`, right-padded with `'_'`; in particular `"à"` with
length 3 yields `"a__"`. -/
theorem C9_shard_key (name : List Char) (shard_len : ℤ) :
    (shard_len ≤ 0 → shard_key_for_name name shard_len = none) ∧
    (normalize_name name = [] → shard_key_for_name name shard_len = none) ∧
    (0 < shard_len → normalize_name name ≠ [] →
      ∃ key, shard_key_for_name name shard_len = some key ∧
        key.length = shard_len.toNat ∧
        key = ((normalize_name name).take shard_len.toNat).map
            (fun ch => if pyIsAscii ch && pyIsAlnum ch then ch else '_')
          ++ List.replicate
            (shard_len.toNat
              - ((normalize_name name).take shard_len.toNat).length) '_') ∧
    shard_key_for_name ['à'] 3 = some ['a', '_', '_'] := by
  refine ⟨?_, ?_, ?_, rfl⟩
  · intro h
    simp [shard_key_for_name, h]
  · intro h
    by_cases hl : shard_len ≤ 0 <;> simp [shard_key_for_name, h, hl]
  · intro hpos hne
    have hl : ¬ shard_len ≤ 0 := not_le.mpr hpos
    refine ⟨_, by simp [shard_key_for_name, hl, hne], ?_, rfl⟩
    have htake : ((normalize_name name).take shard_len.toNat).length
        ≤ shard_len.toNat := by
      simp [List.length_take]
    simp only [List.length_append, List.length_map, List.length_replicate]
    omega

/-- Witness for `C9_shard_key`: concrete instances with the hypotheses
discharged. -/
theorem C9_shard_key_witness :
    shard_key_for_name "Foobar".toList 0 = none ∧
    (∃ key, shard_key_for_name "Foobar".toList 3 = some key ∧
      key.length = (3 : ℤ).toNat ∧
      key = ((normalize_name "Foobar".toList).take (3 : ℤ).toNat).map
          (fun ch => if pyIsAscii ch && pyIsAlnum ch then ch else '_')
        ++ List.replicate
          ((3 : ℤ).toNat
            - ((normalize_name "Foobar".toList).take (3 : ℤ).toNat).length) '_') := by
  constructor
  · exact (C9_shard_key "Foobar".toList 0).1 (by decide)
  · exact (C9_shard_key "Foobar".toList 3).2.2.1 (by decide) (by decide)

/-! ### C7: LOUDS shape invariants -/

theorem count_true_add_count_false (l : List Bool) :
    l.count true + l.count false = l.length := by
  induction l with
  | nil => rfl
  | cons b bs ih => cases b <;> simp [List.count_cons] <;> omega

theorem loudsAux_count_true (q : List Trie) :
    (loudsAux q).1.count true = (loudsAux q).2.1.length := by
  induction q using loudsAux.induct with
  | case1 => simp [loudsAux]
  | case2 t rest es ih =>
    rw [loudsAux]
    simp only [List.count_append, List.length_append, List.count_replicate,
      List.length_map]
    simp only [List.count_cons, List.count_nil]
    simpa using ih

theorem loudsAux_count_false (q : List Trie) :
    (loudsAux q).1.count false = (loudsAux q).2.2.length := by
  induction q using loudsAux.induct with
  | case1 => simp [loudsAux]
  | case2 t rest es ih =>
    rw [loudsAux]
    simp only [List.count_append, List.length_cons, List.count_replicate]
    simp only [List.count_cons, List.count_nil]
    simp only [show es = sortedEdges t from rfl] at ih
    simp
    omega

theorem popcount_add_two_mul (b r : ℕ) (hb : b ≤ 1) :
    popcount (b + 2 * r) = b + popcount r := by
  rw [popcount]
  by_cases h : b + 2 * r = 0
  · have hb0 : b = 0 := by omega
    have hr0 : r = 0 := by omega
    subst hb0; subst hr0
    simp [popcount]
  · simp only [h, if_false]
    have h1 : (b + 2 * r) % 2 = b := by omega
    have h2 : (b + 2 * r) / 2 = r := by omega
    rw [h1, h2]

theorem popcount_bitsToByte (bs : List Bool) :
    popcount (bitsToByte bs) = bs.count true := by
  induction bs with
  | nil => simp [bitsToByte, popcount]
  | cons b rest ih =>
    have hstep : bitsToByte (b :: rest) = (if b then 1 else 0) + 2 * bitsToByte rest := by
      simp [bitsToByte]
    rw [hstep, popcount_add_two_mul _ _ (by cases b <;> simp)]
    cases b <;> simp [List.count_cons, ih] <;> omega

theorem popcountBytes_loudsBytes (bits : List Bool) :
    popcountBytes (loudsBytes bits) = bits.count true := by
  induction bits using loudsBytes.induct with
  | case1 => simp [loudsBytes, popcountBytes]
  | case2 b bs ih =>
    rw [loudsBytes]
    simp only [popcountBytes, List.map_cons, List.sum_cons]
    rw [popcount_bitsToByte]
    have h : (b :: bs).take 8 ++ (b :: bs).drop 8 = b :: bs := List.take_append_drop _ _
    calc ((b :: bs).take 8).count true + ((loudsBytes ((b :: bs).drop 8)).map popcount).sum
        = ((b :: bs).take 8).count true + ((b :: bs).drop 8).count true := by
          rw [show ((loudsBytes ((b :: bs).drop 8)).map popcount).sum
              = popcountBytes (loudsBytes ((b :: bs).drop 8)) from rfl, ih]
      _ = (b :: bs).count true := by rw [← List.count_append, h]

/-- **C7.** For every trie, the outputs of `build_louds` satisfy
`bit_count = node_count + edge_count`, the number of `1` bits of the packed
LOUDS bitvector equals `edge_count`, and the number of `0` bits
(`bit_count - popcount`) equals `node_count`. -/
theorem C7_louds_shape (t : Trie) :
    (build_louds t).2.2.1 = (build_louds t).1 + (build_louds t).2.1 ∧
    popcountBytes (build_louds t).2.2.2.1 = (build_louds t).2.1 ∧
    (build_louds t).2.2.1 - popcountBytes (build_louds t).2.2.2.1
      = (build_louds t).1 := by
  have h1 := loudsAux_count_true [t]
  have h2 := loudsAux_count_false [t]
  have h3 := count_true_add_count_false (loudsAux [t]).1
  have h4 := popcountBytes_loudsBytes (loudsAux [t]).1
  simp only [build_louds]
  refine ⟨by omega, by omega, by omega⟩

/-! ### C6: front-coded name tables -/

theorem encode_varint_lt (v : ℕ) (h : v < 128) : encode_varint v = [v] := by
  rw [encode_varint]
  simp [Nat.div_eq_of_lt h, Nat.mod_eq_of_lt h]

theorem encode_varint_ge (v : ℕ) (h : 128 ≤ v) :
    encode_varint v = (v % 128 + 128) :: encode_varint (v / 128) := by
  rw [encode_varint]
  simp [show ¬ v / 128 = 0 by omega]

theorem decode_encode_varint (v : ℕ) (rest : List ℕ) :
    decode_varint (encode_varint v ++ rest) = some (v, rest) := by
  induction v using encode_varint.induct with
  | case1 x r h =>
    have hx : x < 128 := by omega
    rw [encode_varint_lt x hx]
    simp [decode_varint, hx]
  | case2 x r h ih =>
    have hx : 128 ≤ x := by omega
    rw [encode_varint_ge x hx, List.cons_append]
    simp only [decode_varint]
    rw [if_neg (by omega : ¬ (x % 128 + 128 < 128)), ih]
    show some ((x % 128 + 128) % 128 + 128 * (x / 128), rest) = some (x, rest)
    rw [show (x % 128 + 128) % 128 + 128 * (x / 128) = x by omega]

theorem commonPrefixLen_le_left : ∀ a b : List ℕ, commonPrefixLen a b ≤ a.length
  | [], _ => by simp [commonPrefixLen]
  | _ :: _, [] => by simp [commonPrefixLen]
  | x :: xs, y :: ys => by
    by_cases h : x = y
    · have := commonPrefixLen_le_left xs ys
      simp [commonPrefixLen, h]
      omega
    · simp [commonPrefixLen, h]

theorem commonPrefixLen_le_right : ∀ a b : List ℕ, commonPrefixLen a b ≤ b.length
  | [], _ => by simp [commonPrefixLen]
  | _ :: _, [] => by simp [commonPrefixLen]
  | x :: xs, y :: ys => by
    by_cases h : x = y
    · have := commonPrefixLen_le_right xs ys
      simp [commonPrefixLen, h]
      omega
    · simp [commonPrefixLen, h]

theorem take_commonPrefixLen : ∀ a b : List ℕ,
    a.take (commonPrefixLen a b) = b.take (commonPrefixLen a b)
  | [], b => by simp [commonPrefixLen]
  | _ :: _, [] => by simp [commonPrefixLen]
  | x :: xs, y :: ys => by
    by_cases h : x = y
    · subst h
      simp only [commonPrefixLen, if_pos rfl]
      rw [show 1 + commonPrefixLen xs ys = commonPrefixLen xs ys + 1 by omega]
      simp [List.take_succ_cons, take_commonPrefixLen xs ys]
    · simp [commonPrefixLen, h]

theorem decodeEntries_encodeEntries :
    ∀ (ns : List (List ℕ)) (prev rest : List ℕ),
      decodeEntries prev ns.length (encodeEntries prev ns ++ rest)
        = some (ns, rest)
  | [], prev, rest => by simp [encodeEntries, decodeEntries]
  | n :: ns, prev, rest => by
    rw [encodeEntries, List.length_cons, decodeEntries]
    simp only [List.append_assoc, decode_encode_varint]
    have hlen : (n.drop (commonPrefixLen prev n)).length
        ≤ (n.drop (commonPrefixLen prev n)
            ++ (encodeEntries n ns ++ rest)).length := by
      simp
    rw [if_pos hlen]
    have htake : (n.drop (commonPrefixLen prev n)
        ++ (encodeEntries n ns ++ rest)).take
          (n.drop (commonPrefixLen prev n)).length
        = n.drop (commonPrefixLen prev n) := List.take_left _ _
    have hdrop : (n.drop (commonPrefixLen prev n)
        ++ (encodeEntries n ns ++ rest)).drop
          (n.drop (commonPrefixLen prev n)).length
        = encodeEntries n ns ++ rest := List.drop_left _ _
    rw [htake, hdrop]
    have hname : prev.take (commonPrefixLen prev n)
        ++ n.drop (commonPrefixLen prev n) = n := by
      rw [take_commonPrefixLen prev n, List.take_append_drop]
    rw [hname, decodeEntries_encodeEntries ns n rest]

/-- The sequence of `prefix_len` values the front coder emits for a table,
starting from previous entry `prev`. -/
def tablePrefixLens (prev : List ℕ) : List (List ℕ) → List ℕ
  | [] => []
  | n :: ns => commonPrefixLen prev n :: tablePrefixLens n ns

theorem tablePrefixLens_eq_zip : ∀ (l : List (List ℕ)) (prev : List ℕ),
    tablePrefixLens prev l
      = ((prev :: l).zip l).map (fun pr => commonPrefixLen pr.1 pr.2)
  | [], _ => rfl
  | n :: ns, prev => by
    simp [tablePrefixLens, List.zip_cons_cons, tablePrefixLens_eq_zip ns n]

/-- **C6.** For every list of names, encoding the sorted table produced by
`reindex_names` with `encode_prefix_table` yields a stream whose decoding
(read the entry count, then for each entry take `prefix_len` bytes of the
previously decoded entry followed by the suffix bytes) recovers the sorted
names (as UTF-8 byte strings) exactly, consuming the whole stream; the first
entry's `prefix_len` is 0 and every `prefix_len` is at most the length of both
adjacent entries. -/
theorem C6_front_coding (names : List (List Char)) :
    decode_prefix_table (encode_prefix_table (reindex_names names).1)
      = some ((reindex_names names).1.map strBytes, []) ∧
    ((reindex_names names).1 ≠ [] →
      (tablePrefixLens [] ((reindex_names names).1.map strBytes)).head?
        = some 0) ∧
    tablePrefixLens [] ((reindex_names names).1.map strBytes)
      = (([] :: (reindex_names names).1.map strBytes).zip
          ((reindex_names names).1.map strBytes)).map
        (fun pr => commonPrefixLen pr.1 pr.2) ∧
    (∀ pr ∈ (([] :: (reindex_names names).1.map strBytes).zip
        ((reindex_names names).1.map strBytes)),
      commonPrefixLen pr.1 pr.2 ≤ pr.1.length
        ∧ commonPrefixLen pr.1 pr.2 ≤ pr.2.length) := by
  refine ⟨?_, ?_, tablePrefixLens_eq_zip _ _, ?_⟩
  · rw [encode_prefix_table, decode_prefix_table, decode_encode_varint]
    rw [show (reindex_names names).1.length
        = ((reindex_names names).1.map strBytes).length by simp]
    rw [show encodeEntries [] ((reindex_names names).1.map strBytes)
        = encodeEntries [] ((reindex_names names).1.map strBytes) ++ []
        by simp]
    exact decodeEntries_encodeEntries _ [] []
  · intro h
    match hs : (reindex_names names).1 with
    | [] => exact absurd hs h
    | n :: ns => simp [tablePrefixLens, commonPrefixLen]
  · intro pr _
    exact ⟨commonPrefixLen_le_left _ _, commonPrefixLen_le_right _ _⟩

/-- Witness for `C6_front_coding`: the concrete table
`["", "Node A", "Node B"]`, with the hypotheses discharged. -/
theorem C6_front_coding_witness :
    decode_prefix_table
        (encode_prefix_table (reindex_names [[], "Node A".toList, "Node B".toList]).1)
      = some ((reindex_names [[], "Node A".toList, "Node B".toList]).1.map strBytes, [])
    ∧ (tablePrefixLens []
        ((reindex_names [[], "Node A".toList, "Node B".toList]).1.map strBytes)).head?
      = some 0
    ∧ commonPrefixLen (strBytes "Node A".toList) (strBytes "Node B".toList)
        ≤ (strBytes "Node A".toList).length := by
  have h := C6_front_coding [[], "Node A".toList, "Node B".toList]
  refine ⟨h.1, h.2.1 (by decide), ?_⟩
  have hmem := h.2.2.2 (strBytes "Node A".toList, strBytes "Node B".toList)
  exact (hmem (by decide)).1

/-! ### C10: idempotence of compression -/

/-- A node is *not* a mergeable chain link: it has a terminal or its edge
count differs from one (the negation of the merge condition of source
line 153). -/
def notChain : Trie → Bool
  | .node none (.cons _ _ .nil) => false
  | _ => true

mutual
/-- Every child produced by `compress_trie` is a non-chain node, recursively. -/
def compressedT : Trie → Prop
  | .node _ es => compressedE es
termination_by structural t => t
def compressedE : Edges → Prop
  | .nil => True
  | .cons _ c rest => notChain c = true ∧ compressedT c ∧ compressedE rest
termination_by structural e => e
end

theorem mergeChain_of_notChain :
    ∀ (k : List Char) (t : Trie), notChain t = true → mergeChain k t = (k, t)
  | _, .node none .nil, _ => rfl
  | _, .node none (.cons _ _ .nil), h => by simp [notChain] at h
  | _, .node none (.cons _ _ (.cons _ _ _)), _ => rfl
  | _, .node (some _) _, _ => rfl

theorem mergeChain_compressed :
    ∀ (k : List Char) (t : Trie), compressedT t →
      notChain (mergeChain k t).2 = true ∧ compressedT (mergeChain k t).2
  | k, .node none (.cons k2 c2 .nil), h => by
    obtain ⟨hnc, hct, -⟩ : notChain c2 = true ∧ compressedT c2 ∧ True := h
    rw [show mergeChain k (.node none (.cons k2 c2 .nil))
        = mergeChain (k ++ k2) c2 from rfl,
      mergeChain_of_notChain (k ++ k2) c2 hnc]
    exact ⟨hnc, hct⟩
  | k, .node none .nil, h => ⟨rfl, h⟩
  | k, .node none (.cons _ _ (.cons _ _ _)), h => ⟨rfl, h⟩
  | k, .node (some _) _, h => ⟨rfl, h⟩

mutual
theorem compress_compressedT : ∀ t : Trie, compressedT (compress_trie t)
  | .node term es => by
    rw [show compress_trie (.node term es) = .node term (compressEdges es) from rfl]
    exact compress_compressedE es
theorem compress_compressedE : ∀ es : Edges, compressedE (compressEdges es)
  | .nil => trivial
  | .cons k c rest => by
    have hc := compress_compressedT c
    have hm := mergeChain_compressed k (compress_trie c) hc
    exact ⟨hm.1, hm.2, compress_compressedE rest⟩
end

mutual
theorem compress_of_compressedT :
    ∀ t : Trie, compressedT t → compress_trie t = t
  | .node term es => fun h => by
    rw [show compress_trie (.node term es) = .node term (compressEdges es) from rfl,
      compress_of_compressedE es h]
theorem compress_of_compressedE :
    ∀ es : Edges, compressedE es → compressEdges es = es
  | .nil => fun _ => rfl
  | .cons k c rest => fun h => by
    obtain ⟨hnc, hct, hrest⟩ := h
    rw [show compressEdges (.cons k c rest)
        = .cons (mergeChain k (compress_trie c)).1 (mergeChain k (compress_trie c)).2
          (compressEdges rest) from rfl,
      compress_of_compressedT c hct, mergeChain_of_notChain k c hnc,
      compress_of_compressedE rest hrest]
end

/-- **C10.** `compress_trie` is idempotent: compressing an already-compressed
trie changes nothing. -/
theorem C10_compress_idempotent (t : Trie) :
    compress_trie (compress_trie t) = compress_trie t :=
  compress_of_compressedT (compress_trie t) (compress_compressedT t)

/-! ### C3: edge-label distinctness after compression -/

mutual
/-- At every node: edge labels pairwise distinct, no two sharing the same
first character, all non-empty; recursively. -/
def PatriciaT : Trie → Prop
  | .node _ es => (Edges.labels es).Nodup
      ∧ ((Edges.labels es).map List.head?).Nodup
      ∧ (∀ l ∈ Edges.labels es, l ≠ []) ∧ PatriciaE es
termination_by structural t => t
def PatriciaE : Edges → Prop
  | .nil => True
  | .cons _ c rest => PatriciaT c ∧ PatriciaE rest
termination_by structural e => e
end

mutual
/-- At every node of an uncompressed (insert-built) trie: all edge labels are
single characters and pairwise distinct; recursively. -/
def SingleT : Trie → Prop
  | .node _ es => (∀ l ∈ Edges.labels es, l.length = 1)
      ∧ (Edges.labels es).Nodup ∧ SingleE es
termination_by structural t => t
def SingleE : Edges → Prop
  | .nil => True
  | .cons _ c rest => SingleT c ∧ SingleE rest
termination_by structural e => e
end

theorem labels_setEdge : ∀ (es : Edges) (lbl : List Char) (x : Trie),
    Edges.labels (setEdge es lbl x)
      = if lbl ∈ Edges.labels es then Edges.labels es
        else Edges.labels es ++ [lbl]
  | .nil, lbl, x => by simp [setEdge, Edges.labels]
  | .cons k c rest, lbl, x => by
    by_cases h : k = lbl
    · subst h
      simp [setEdge, Edges.labels]
    · simp only [setEdge, if_neg h, Edges.labels, labels_setEdge rest lbl x]
      by_cases hm : lbl ∈ Edges.labels rest
      · simp [hm, List.mem_cons, Ne.symm h]
      · simp [hm, List.mem_cons, Ne.symm h]

theorem findEdge_SingleT : ∀ (es : Edges) (lbl : List Char) (c : Trie),
    SingleE es → findEdge es lbl = some c → SingleT c
  | .nil, _, _, _, hf => by simp [findEdge] at hf
  | .cons k c' rest, lbl, c, hs, hf => by
    obtain ⟨hc', hrest⟩ := hs
    by_cases h : k = lbl
    · simp only [findEdge, if_pos h] at hf
      cases hf
      exact hc'
    · simp only [findEdge, if_neg h] at hf
      exact findEdge_SingleT rest lbl c hrest hf

theorem setEdge_SingleE : ∀ (es : Edges) (lbl : List Char) (x : Trie),
    SingleE es → SingleT x → SingleE (setEdge es lbl x)
  | .nil, lbl, x, _, hx => ⟨hx, trivial⟩
  | .cons k c rest, lbl, x, hs, hx => by
    obtain ⟨hc, hrest⟩ := hs
    by_cases h : k = lbl
    · simp only [setEdge, if_pos h]
      exact ⟨hx, hrest⟩
    · simp only [setEdge, if_neg h]
      exact ⟨hc, setEdge_SingleE rest lbl x hrest hx⟩

theorem empty_SingleT : SingleT Trie.empty := by
  refine ⟨?_, ?_, trivial⟩ <;> simp [Trie.empty, Edges.labels]

theorem insert_SingleT : ∀ (key : List Char) (t : Trie) (index : ℕ),
    SingleT t → SingleT (insert_trie t key index)
  | [], .node term es, index, h => h
  | ch :: rest, .node term es, index, h => by
    obtain ⟨hlen, hnd, hse⟩ := h
    have hchild : SingleT ((findEdge es [ch]).getD Trie.empty) := by
      cases hfind : findEdge es [ch] with
      | none => simpa using empty_SingleT
      | some c => simpa using findEdge_SingleT es [ch] c hse hfind
    have hnew := insert_SingleT rest _ index hchild
    refine ⟨?_, ?_, setEdge_SingleE es [ch] _ hse hnew⟩
    · rw [labels_setEdge]
      by_cases hm : [ch] ∈ Edges.labels es
      · simpa [hm] using hlen
      · simp only [hm, if_false]
        intro l hl
        rcases List.mem_append.mp hl with h1 | h1
        · exact hlen l h1
        · simp at h1
          subst h1
          rfl
    · rw [labels_setEdge]
      by_cases hm : [ch] ∈ Edges.labels es
      · simpa [hm] using hnd
      · simp only [hm, if_false]
        rw [List.nodup_append]
        exact ⟨hnd, List.nodup_singleton _, by simpa [List.disjoint_singleton] using hm⟩

theorem foldl_insert_SingleT (inserts : List (List Char × ℕ)) :
    SingleT (inserts.foldl (fun t p => insert_trie t p.1 p.2) Trie.empty) := by
  suffices h : ∀ t, SingleT t →
      SingleT (inserts.foldl (fun t p => insert_trie t p.1 p.2) t) from
    h Trie.empty empty_SingleT
  induction inserts with
  | nil => intro t h; simpa using h
  | cons p ps ih =>
    intro t h
    exact ih _ (insert_SingleT p.1 t p.2 h)

theorem mergeChain_fst_head :
    ∀ (k : List Char) (t : Trie), k ≠ [] →
      (mergeChain k t).1 ≠ [] ∧ (mergeChain k t).1.head? = k.head?
  | k, .node none (.cons k2 c2 .nil), hk => by
    rw [show mergeChain k (.node none (.cons k2 c2 .nil))
        = mergeChain (k ++ k2) c2 from rfl]
    have hne : k ++ k2 ≠ [] := by simp [hk]
    have h := mergeChain_fst_head (k ++ k2) c2 hne
    refine ⟨h.1, h.2.trans ?_⟩
    cases k with
    | nil => exact absurd rfl hk
    | cons a as => rfl
  | k, .node none .nil, hk => ⟨hk, rfl⟩
  | k, .node none (.cons _ _ (.cons _ _ _)), hk => ⟨hk, rfl⟩
  | k, .node (some _) _, hk => ⟨hk, rfl⟩

theorem mergeChain_PatriciaT :
    ∀ (k : List Char) (t : Trie), PatriciaT t → PatriciaT (mergeChain k t).2
  | k, .node none (.cons k2 c2 .nil), h => by
    obtain ⟨-, -, -, hc2, -⟩ : _ ∧ _ ∧ _ ∧ PatriciaT c2 ∧ True := h
    exact mergeChain_PatriciaT (k ++ k2) c2 hc2
  | k, .node none .nil, h => h
  | k, .node none (.cons _ _ (.cons _ _ _)), h => h
  | k, .node (some _) _, h => h

theorem exists_singleton_of_length_one {l : List Char} (h : l.length = 1) :
    ∃ a, l = [a] := by
  cases l with
  | nil => simp at h
  | cons a as =>
    cases as with
    | nil => exact ⟨a, rfl⟩
    | cons b bs => simp at h

theorem singleton_heads_nodup : ∀ ls : List (List Char),
    (∀ l ∈ ls, l.length = 1) → ls.Nodup → (ls.map List.head?).Nodup
  | [], _, _ => List.nodup_nil
  | l :: ls, hlen, hnd => by
    obtain ⟨hl, hnotmem⟩ := List.nodup_cons.mp hnd
    refine List.nodup_cons.mpr ⟨?_, singleton_heads_nodup ls (fun x hx => hlen x (List.mem_cons_of_mem _ hx)) hnotmem⟩
    intro hmem
    obtain ⟨l', hl', hh⟩ := List.mem_map.mp hmem
    obtain ⟨a, rfl⟩ := exists_singleton_of_length_one (hlen l (List.mem_cons_self _ _))
    obtain ⟨b, rfl⟩ := exists_singleton_of_length_one
      (hlen l' (List.mem_cons_of_mem _ hl'))
    simp only [List.head?] at hh
    cases hh
    exact hl hl'

mutual
theorem compress_PatriciaT : ∀ t : Trie, SingleT t → PatriciaT (compress_trie t)
  | .node term es => fun h => by
    obtain ⟨hlen, hnd, hse⟩ := h
    obtain ⟨hheads, hne, hpe⟩ := compressEdges_Patricia es hlen hse
    rw [show compress_trie (.node term es) = .node term (compressEdges es) from rfl]
    have hheadnd : ((Edges.labels (compressEdges es)).map List.head?).Nodup := by
      rw [hheads]
      exact singleton_heads_nodup _ hlen hnd
    exact ⟨hheadnd.of_map, hheadnd, hne, hpe⟩
theorem compressEdges_Patricia : ∀ es : Edges,
    (∀ l ∈ Edges.labels es, l.length = 1) → SingleE es →
      (Edges.labels (compressEdges es)).map List.head?
          = (Edges.labels es).map List.head?
        ∧ (∀ l ∈ Edges.labels (compressEdges es), l ≠ [])
        ∧ PatriciaE (compressEdges es)
  | .nil, _, _ => ⟨rfl, by simp [compressEdges, Edges.labels], trivial⟩
  | .cons k c rest, hlen, hse => by
    obtain ⟨hc, hrest⟩ := hse
    have hk : k ≠ [] := by
      have := hlen k (by simp [Edges.labels])
      intro hcon
      simp [hcon] at this
    have hmc := mergeChain_fst_head k (compress_trie c) hk
    have hpc := mergeChain_PatriciaT k (compress_trie c) (compress_PatriciaT c hc)
    have ih := compressEdges_Patricia rest
      (fun l hl => hlen l (by simp [Edges.labels, hl])) hrest
    rw [show compressEdges (.cons k c rest)
        = .cons (mergeChain k (compress_trie c)).1 (mergeChain k (compress_trie c)).2
          (compressEdges rest) from rfl]
    refine ⟨?_, ?_, hpc, ih.2.2⟩
    · simp only [Edges.labels, List.map_cons, hmc.2, ih.1]
    · intro l hl
      simp only [Edges.labels, List.mem_cons] at hl
      rcases hl with rfl | hl
      · exact hmc.1
      · exact ih.2.1 l hl
end

/-- **C3, counterexample.** The claim requires that edge labels under one node
never share the first *byte of their UTF-8 encodings*.  `insert_trie` descends
one *code point* at a time, so inserting the non-empty keys `"à"` and `"á"`
and compressing leaves two distinct root edge labels whose UTF-8 encodings
both start with byte 195 (0xC3). -/
theorem C3_counterexample :
    (compress_trie (insert_trie (insert_trie Trie.empty ['à'] 0) ['á'] 1)).edges.labels
      = [['à'], ['á']] ∧
    (['à'] : List Char) ≠ ['á'] ∧
    (utf8Bytes 'à').head? = some 195 ∧ (utf8Bytes 'á').head? = some 195 := by
  refine ⟨rfl, by decide, rfl, rfl⟩

/-- **C3, amended.** For every set of non-empty keys inserted with
`insert_trie`, in the trie returned by `compress_trie` every node's outgoing
edge labels are pairwise distinct, non-empty, and no two of them share the
same first *character* (insertion descends one code point at a time, with key
code points as the alphabet). -/
theorem C3_amended (inserts : List (List Char × ℕ))
    (h : ∀ p ∈ inserts, p.1 ≠ []) :
    PatriciaT (compress_trie
      (inserts.foldl (fun t p => insert_trie t p.1 p.2) Trie.empty)) :=
  compress_PatriciaT _ (foldl_insert_SingleT inserts)

/-- Witness for `C3_amended`: the `"cat"/"car"/"dog"/"do"` key set. -/
theorem C3_amended_witness :
    PatriciaT (compress_trie
      ([("cat".toList, 1), ("car".toList, 2), ("dog".toList, 3), ("do".toList, 4)].foldl
        (fun t p => insert_trie t p.1 p.2) Trie.empty)) :=
  C3_amended _ (by decide)

/-! ### C8: fixed-point coordinates -/

theorem pyRound_nearest (q : ℚ) : |(pyRound q : ℚ) - q| ≤ 1/2 := by
  have h1 : (⌊q⌋ : ℚ) ≤ q := Int.floor_le q
  have h2 : q < ⌊q⌋ + 1 := Int.lt_floor_add_one q
  rw [abs_le]
  simp only [pyRound]
  split_ifs with hlt hgt heven
  all_goals constructor
  all_goals push_cast
  all_goals linarith

theorem pyRound_intCast (n : ℤ) : pyRound (n : ℚ) = n := by
  norm_num [pyRound, Int.floor_intCast]

theorem decodeSigned24_toBytes (i : ℤ) (hlo : -(2 ^ 23) ≤ i) (hhi : i < 2 ^ 23) :
    decodeSigned24 [(i % 2 ^ 24).toNat % 256, (i % 2 ^ 24).toNat / 256 % 256,
      (i % 2 ^ 24).toNat / 65536] = i := by
  have hmn : (0 : ℤ) ≤ i % 2 ^ 24 := Int.emod_nonneg i (by norm_num)
  have hml : i % 2 ^ 24 < 2 ^ 24 := Int.emod_lt_of_pos i (by norm_num)
  have hn : (((i % 2 ^ 24).toNat : ℤ)) = i % 2 ^ 24 := Int.toNat_of_nonneg hmn
  have hdvd : (2 ^ 24 : ℤ) ∣ i - i % 2 ^ 24 := Int.dvd_sub_of_emod_eq rfl
  rw [decodeSigned24]
  simp only [List.getD_cons_zero, List.getD_cons_succ]
  split_ifs with hlt
  · push_cast at hlt ⊢
    omega
  · push_cast at hlt ⊢
    omega

/-- **C8.** For every coordinate value written by `pack_trie`, `x * scale` is
rounded to the nearest integer (`pyRound`, Python's round) and written as
3-byte little-endian two's complement (`decodeSigned24` of the bytes recovers
the rounded integer); the encoding fails exactly when the rounded integer does
not fit in 24 signed bits; and `±180` and `±90` degrees at the default scale
10000 encode successfully. -/
theorem C8_coordinates (x : ℚ) (scale : ℕ) :
    (encodeCoord x scale = none ↔
      ¬(-(2 ^ 23) ≤ pyRound (x * scale) ∧ pyRound (x * scale) < 2 ^ 23)) ∧
    (∀ bs, encodeCoord x scale = some bs →
      bs.length = 3 ∧ (∀ b ∈ bs, b < 256)
        ∧ decodeSigned24 bs = pyRound (x * scale)) ∧
    |(pyRound (x * scale) : ℚ) - x * scale| ≤ 1/2 ∧
    (encodeCoord 180 10000).isSome = true ∧
    (encodeCoord (-180) 10000).isSome = true ∧
    (encodeCoord 90 10000).isSome = true ∧
    (encodeCoord (-90) 10000).isSome = true := by
  have henc : ∀ (y : ℚ) (n : ℤ), y = (n : ℚ) → -(2 ^ 23) ≤ n * 10000 →
      n * 10000 < 2 ^ 23 → (encodeCoord y 10000).isSome = true := by
    intro y n hy hlo hhi
    have hcast : y * ((10000 : ℕ) : ℚ) = ((n * 10000 : ℤ) : ℚ) := by
      rw [hy]; push_cast; ring
    rw [encodeCoord, hcast, pyRound_intCast, toBytes3LE, if_pos ⟨hlo, hhi⟩]
    rfl
  refine ⟨?_, ?_, pyRound_nearest (x * scale), ?_, ?_, ?_, ?_⟩
  · rw [encodeCoord, toBytes3LE]
    split_ifs with h
    · exact iff_of_false (by simp) (not_not.mpr h)
    · exact iff_of_true rfl h
  · intro bs hbs
    rw [encodeCoord, toBytes3LE] at hbs
    split_ifs at hbs with h
    · obtain ⟨hlo, hhi⟩ := h
      injection hbs with hbs
      subst hbs
      have hmn : (0 : ℤ) ≤ pyRound (x * scale) % 2 ^ 24 :=
        Int.emod_nonneg _ (by norm_num)
      have hml : pyRound (x * scale) % 2 ^ 24 < 2 ^ 24 :=
        Int.emod_lt_of_pos _ (by norm_num)
      have hnlt : (pyRound (x * scale) % 2 ^ 24).toNat < 2 ^ 24 := by omega
      refine ⟨rfl, ?_, decodeSigned24_toBytes _ hlo hhi⟩
      intro b hb
      simp only [List.mem_cons, List.not_mem_nil, or_false] at hb
      rcases hb with rfl | rfl | rfl <;> omega
  · exact henc 180 180 (by norm_num) (by norm_num) (by norm_num)
  · exact henc (-180) (-180) (by norm_num) (by norm_num) (by norm_num)
  · exact henc 90 90 (by norm_num) (by norm_num) (by norm_num)
  · exact henc (-90) (-90) (by norm_num) (by norm_num) (by norm_num)

/-- Witness for `C8_coordinates`: `180°` at the default scale encodes to the
bytes `[64, 119, 27]` (little-endian `1800000`), which decode back to the
rounded integer. -/
theorem C8_coordinates_witness :
    ([64, 119, 27] : List ℕ).length = 3 ∧
    (∀ b ∈ ([64, 119, 27] : List ℕ), b < 256) ∧
    decodeSigned24 [64, 119, 27] = pyRound ((180 : ℚ) * (10000 : ℕ)) := by
  have hcast : (180 : ℚ) * ((10000 : ℕ) : ℚ) = ((1800000 : ℤ) : ℚ) := by
    push_cast; ring
  have hval : encodeCoord 180 10000 = some [64, 119, 27] := by
    rw [encodeCoord, hcast, pyRound_intCast, toBytes3LE,
      if_pos (by constructor <;> norm_num)]
    rfl
  exact (C8_coordinates 180 10000).2.1 [64, 119, 27] hval

/-! ### C2: inline kind nibbles versus a trailing kind stream -/

theorem packValueLoc_eq (scale : ℕ) (st : List ℕ × Option ℕ) (loc : Loc) :
    packValueLoc scale st loc
      = (specFieldsLoc scale loc).map
          (fun F => writeKindNibble (st.1 ++ F) st.2 loc.2.2.2.2) := by
  obtain ⟨lon, lat, node_idx, city_idx, kind_byte⟩ := loc
  show (match encodeCoord lon scale, encodeCoord lat scale with
      | some lonB, some latB =>
        some (writeKindNibble (st.1 ++ lonB ++ latB ++ encode_varint node_idx
          ++ encode_varint city_idx) st.2 kind_byte)
      | _, _ => none)
    = (match encodeCoord lon scale, encodeCoord lat scale with
      | some lonB, some latB =>
        some (lonB ++ latB ++ encode_varint node_idx ++ encode_varint city_idx)
      | _, _ => none).map
        (fun F => writeKindNibble (st.1 ++ F) st.2 kind_byte)
  cases encodeCoord lon scale with
  | none => rfl
  | some lonB =>
    cases encodeCoord lat scale with
    | none => rfl
    | some latB => simp [List.append_assoc]

theorem packValue_eq (remapped : List Loc) (scale : ℕ)
    (st : List ℕ × Option ℕ) (v : ℕ) :
    packValue remapped scale st v
      = (specValueFields remapped scale v).map
          (fun F => writeKindNibble (st.1 ++ F) st.2 (kindOf remapped v)) :=
  packValueLoc_eq scale st _

def nibblePackP : Option ℕ → List ℕ → List ℕ
  | none, [] => []
  | some p, [] => [p]
  | none, k :: ks => nibblePackP (some (k % 16)) ks
  | some p, k :: ks => (p + 16 * (k % 16)) :: nibblePackP none ks

theorem perm_middle_swap {α : Type} (a b c : List α) :
    (a ++ (b ++ c)).Perm (b ++ (a ++ c)) := by
  have h : ((a ++ b) ++ c).Perm ((b ++ a) ++ c) :=
    List.Perm.append_right c List.perm_append_comm
  rw [List.append_assoc, List.append_assoc] at h
  exact h

theorem packNodeValues_none_iff (remapped : List Loc) (scale : ℕ)
    (vs : List ℕ) : ∀ st : List ℕ × Option ℕ,
      packNodeValues remapped scale vs st = none
        ↔ specFieldsList remapped scale vs = none := by
  induction vs with
  | nil =>
    intro st
    rw [packNodeValues, specFieldsList]
    exact iff_of_false (by simp) (by simp)
  | cons v vs ih =>
    intro st
    rw [packNodeValues, specFieldsList, packValue_eq]
    cases hv : specValueFields remapped scale v with
    | none => exact iff_of_true rfl rfl
    | some F =>
      simp only [Option.map_some']
      rw [ih]
      cases hr : specFieldsList remapped scale vs with
      | none => exact iff_of_true rfl rfl
      | some r => exact iff_of_false (by simp [hr]) (by simp)

theorem packNodeValues_perm (remapped : List Loc) (scale : ℕ)
    (vs : List ℕ) :
    ∀ (out : List ℕ) (p : Option ℕ) (out' : List ℕ) (p' : Option ℕ)
      (F : List ℕ),
      packNodeValues remapped scale vs (out, p) = some (out', p') →
      specFieldsList remapped scale vs = some F →
      ∀ KS : List ℕ,
        (out' ++ nibblePackP p' KS).Perm
          (out ++ F ++ nibblePackP p (vs.map (kindOf remapped) ++ KS)) := by
  induction vs with
  | nil =>
    intro out p out' p' F hsome hF KS
    rw [packNodeValues] at hsome
    rw [specFieldsList] at hF
    injection hsome with hsome
    injection hF with hF
    cases hsome
    cases hF
    simp
  | cons v vs ih =>
    intro out p out' p' F hsome hF KS
    rw [packNodeValues, packValue_eq] at hsome
    rw [specFieldsList] at hF
    cases hv : specValueFields remapped scale v with
    | none => rw [hv] at hsome; cases hsome
    | some F0 =>
      rw [hv] at hsome hF
      cases hr : specFieldsList remapped scale vs with
      | none => rw [hr] at hF; cases hF
      | some Frest =>
        rw [hr] at hF
        injection hF with hF
        cases hF
        simp only [Option.map_some'] at hsome
        cases p with
        | none =>
          have hsome2 : packNodeValues remapped scale vs
              (out ++ F0, some (kindOf remapped v % 16)) = some (out', p') := by
            simpa [writeKindNibble] using hsome
          have h1 := ih (out ++ F0) (some (kindOf remapped v % 16)) out' p' Frest
            hsome2 hr KS
          simp only [List.map_cons, nibblePackP]
          simpa [List.append_assoc] using h1
        | some q =>
          have hsome2 : packNodeValues remapped scale vs
              (out ++ F0 ++ [q + 16 * (kindOf remapped v % 16)], none)
              = some (out', p') := by
            simpa [writeKindNibble, List.append_assoc] using hsome
          have h1 := ih (out ++ F0 ++ [q + 16 * (kindOf remapped v % 16)]) none
            out' p' Frest hsome2 hr KS
          simp only [List.map_cons, nibblePackP]
          have h2 : (out' ++ nibblePackP p' KS).Perm
              (out ++ (F0 ++ ([q + 16 * (kindOf remapped v % 16)]
                ++ (Frest ++ nibblePackP none
                  (vs.map (kindOf remapped) ++ KS))))) := by
            simpa [List.append_assoc] using h1
          have h3 := List.Perm.append_left out (List.Perm.append_left F0
            (perm_middle_swap [q + 16 * (kindOf remapped v % 16)] Frest
              (nibblePackP none (vs.map (kindOf remapped) ++ KS))))
          refine (h2.trans h3).trans (List.Perm.of_eq ?_)
          simp [List.append_assoc]

theorem nibblePackP_none : ∀ ks : List ℕ, nibblePackP none ks = nibblePack ks
  | [] => rfl
  | [k] => rfl
  | k1 :: k2 :: rest => by
    simp only [nibblePackP, nibblePack]
    rw [nibblePackP_none rest]

theorem packValuesAux_none_iff (remapped : List Loc) (scale : ℕ)
    (vals : List (List ℕ)) : ∀ st : List ℕ × Option ℕ,
      packValuesAux remapped scale vals st = none
        ↔ specValueBlocks remapped scale vals = none := by
  induction vals with
  | nil =>
    intro st
    rw [packValuesAux, specValueBlocks]
    exact iff_of_false (by simp) (by simp)
  | cons values rest ih =>
    intro st
    rw [packValuesAux, specValueBlocks]
    cases hn : packNodeValues remapped scale values
        (st.1 ++ encode_varint values.length, st.2) with
    | none =>
      rw [(packNodeValues_none_iff remapped scale values _).mp hn]
      exact iff_of_true rfl rfl
    | some st' =>
      cases hfl : specFieldsList remapped scale values with
      | none =>
        exfalso
        rw [(packNodeValues_none_iff remapped scale values
          (st.1 ++ encode_varint values.length, st.2)).mpr hfl] at hn
        cases hn
      | some F =>
        rw [ih st']
        cases hb : specValueBlocks remapped scale rest with
        | none => exact iff_of_true rfl rfl
        | some B => exact iff_of_false (by simp) (by simp)

theorem packValuesAux_perm (remapped : List Loc) (scale : ℕ)
    (vals : List (List ℕ)) :
    ∀ (out : List ℕ) (p : Option ℕ) (out' : List ℕ) (p' : Option ℕ)
      (B : List ℕ),
      packValuesAux remapped scale vals (out, p) = some (out', p') →
      specValueBlocks remapped scale vals = some B →
      ∀ KS : List ℕ,
        (out' ++ nibblePackP p' KS).Perm
          (out ++ B ++ nibblePackP p (kindsOf vals remapped ++ KS)) := by
  induction vals with
  | nil =>
    intro out p out' p' B hsome hB KS
    rw [packValuesAux] at hsome
    rw [specValueBlocks] at hB
    injection hsome with h1
    injection hB with h2
    cases h1
    cases h2
    simp [kindsOf]
  | cons values rest ih =>
    intro out p out' p' B hsome hB KS
    rw [packValuesAux] at hsome
    rw [specValueBlocks] at hB
    cases hn : packNodeValues remapped scale values
        (out ++ encode_varint values.length, p) with
    | none => rw [hn] at hsome; cases hsome
    | some st2 =>
      rw [hn] at hsome
      cases hfl : specFieldsList remapped scale values with
      | none =>
        exfalso
        rw [(packNodeValues_none_iff remapped scale values
          (out ++ encode_varint values.length, p)).mpr hfl] at hn
        cases hn
      | some F =>
        rw [hfl] at hB
        cases hbr : specValueBlocks remapped scale rest with
        | none => rw [hbr] at hB; cases hB
        | some Brest =>
          rw [hbr] at hB
          injection hB with hB
          cases hB
          obtain ⟨o2, p2⟩ := st2
          have hinner := packNodeValues_perm remapped scale values
            (out ++ encode_varint values.length) p o2 p2 F hn hfl
            (kindsOf rest remapped ++ KS)
          have houter := ih o2 p2 out' p' Brest hsome hbr KS
          have houter2 : (out' ++ nibblePackP p' KS).Perm
              (o2 ++ (Brest ++ nibblePackP p2 (kindsOf rest remapped ++ KS))) := by
            simpa [List.append_assoc] using houter
          have hstep1 : (o2 ++ (Brest ++ nibblePackP p2 (kindsOf rest remapped ++ KS))).Perm
              (o2 ++ (nibblePackP p2 (kindsOf rest remapped ++ KS) ++ Brest)) :=
            List.Perm.append_left o2 List.perm_append_comm
          have hinner2 : ((o2 ++ nibblePackP p2 (kindsOf rest remapped ++ KS)) ++ Brest).Perm
              ((out ++ (encode_varint values.length ++ (F ++ nibblePackP p
                (values.map (kindOf remapped) ++ (kindsOf rest remapped ++ KS))))) ++ Brest) := by
            refine List.Perm.append_right Brest ?_
            simpa [List.append_assoc] using hinner
          have hstep2 : (o2 ++ (nibblePackP p2 (kindsOf rest remapped ++ KS) ++ Brest)).Perm
              (out ++ (encode_varint values.length ++ (F ++ (nibblePackP p
                (values.map (kindOf remapped) ++ (kindsOf rest remapped ++ KS)) ++ Brest)))) := by
            have h := hinner2
            simp only [List.append_assoc] at h
            exact h
          have hstep3 : (out ++ (encode_varint values.length ++ (F ++ (nibblePackP p
                (values.map (kindOf remapped) ++ (kindsOf rest remapped ++ KS)) ++ Brest)))).Perm
              (out ++ (encode_varint values.length ++ (F ++ (Brest ++ nibblePackP p
                (values.map (kindOf remapped) ++ (kindsOf rest remapped ++ KS)))))) :=
            List.Perm.append_left out (List.Perm.append_left _
              (List.Perm.append_left F List.perm_append_comm))
          have hfinal := ((houter2.trans hstep1).trans hstep2).trans hstep3
          refine hfinal.trans (List.Perm.of_eq ?_)
          simp [kindsOf, List.append_assoc]

theorem packValuesAux_no_values (remapped : List Loc) (scale : ℕ)
    (vals : List (List ℕ)) :
    ∀ (out : List ℕ) (p : Option ℕ), vals.flatten = [] →
      ∃ B, specValueBlocks remapped scale vals = some B ∧
        packValuesAux remapped scale vals (out, p) = some (out ++ B, p) := by
  induction vals with
  | nil =>
    intro out p _
    refine ⟨[], rfl, ?_⟩
    rw [packValuesAux]
    simp
  | cons values rest ih =>
    intro out p h
    rw [List.flatten_cons] at h
    obtain ⟨hv, hr⟩ := List.append_eq_nil.mp h
    subst hv
    obtain ⟨B, hB, haux⟩ := ih (out ++ encode_varint (0 : ℕ)) p hr
    refine ⟨encode_varint (0 : ℕ) ++ B, ?_, ?_⟩
    · rw [specValueBlocks, hB]
      show some (encode_varint (List.length []) ++ [] ++ B)
          = some (encode_varint (0 : ℕ) ++ B)
      simp
    · rw [packValuesAux]
      show (match packNodeValues remapped scale []
          (out ++ encode_varint (List.length []), p) with
        | none => none
        | some st' => packValuesAux remapped scale rest st') = _
      show packValuesAux remapped scale rest (out ++ encode_varint (0 : ℕ), p)
          = some (out ++ (encode_varint (0 : ℕ) ++ B), p)
      rw [haux]
      simp [List.append_assoc]

theorem packValuesAux_single_value (remapped : List Loc) (scale : ℕ)
    (vals : List (List ℕ)) :
    ∀ (out : List ℕ) (v : ℕ), vals.flatten = [v] →
      ∀ B, specValueBlocks remapped scale vals = some B →
        packValuesAux remapped scale vals (out, none)
          = some (out ++ B, some (kindOf remapped v % 16)) := by
  induction vals with
  | nil =>
    intro out v h
    cases h
  | cons values rest ih =>
    intro out v h B hB
    rw [List.flatten_cons] at h
    rw [specValueBlocks] at hB
    cases values with
    | nil =>
      simp only [List.nil_append] at h
      rw [packValuesAux]
      cases hbr : specValueBlocks remapped scale rest with
      | none => rw [hbr] at hB; cases hB
      | some Brest =>
        rw [hbr] at hB
        rw [show specFieldsList remapped scale [] = some [] from rfl] at hB
        injection hB with hB
        cases hB
        have haux := ih (out ++ encode_varint (0 : ℕ)) v h Brest hbr
        show packValuesAux remapped scale rest (out ++ encode_varint (0 : ℕ), none)
            = some (out ++ (encode_varint (0 : ℕ) ++ [] ++ Brest),
              some (kindOf remapped v % 16))
        rw [haux]
        simp [List.append_assoc]
    | cons v1 vs =>
      have hlist : v1 :: (vs ++ rest.flatten) = [v] := by simpa using h
      injection hlist with h1 h2
      obtain ⟨h3, hrf⟩ := List.append_eq_nil.mp h2
      subst h1
      subst h3
      cases hfl : specFieldsList remapped scale [v1] with
      | none => rw [hfl] at hB; cases hB
      | some F =>
        rw [hfl] at hB
        cases hbr : specValueBlocks remapped scale rest with
        | none => rw [hbr] at hB; cases hB
        | some Brest =>
          rw [hbr] at hB
          injection hB with hB
          cases hB
          cases hf0 : specValueFields remapped scale v1 with
          | none => rw [specFieldsList, hf0] at hfl; cases hfl
          | some F0 =>
            have hF : F = F0 ++ [] := by
              rw [specFieldsList, hf0,
                show specFieldsList remapped scale [] = some [] from rfl] at hfl
              injection hfl with hfl
              exact hfl.symm
            subst hF
            rw [packValuesAux]
            have hpn : packNodeValues remapped scale [v1]
                (out ++ encode_varint (List.length [v1]), none)
                = some (out ++ encode_varint (List.length [v1]) ++ F0,
                    some (kindOf remapped v1 % 16)) := by
              rw [packNodeValues, packValue_eq, hf0]
              simp only [Option.map_some']
              rfl
            rw [hpn]
            obtain ⟨B2, hB2, haux2⟩ := packValuesAux_no_values remapped scale rest
              (out ++ encode_varint (List.length [v1]) ++ F0)
              (some (kindOf remapped v1 % 16)) hrf
            rw [hbr] at hB2
            injection hB2 with hB2
            cases hB2
            show packValuesAux remapped scale rest
                (out ++ encode_varint (List.length [v1]) ++ F0,
                  some (kindOf remapped v1 % 16))
              = some (out ++ (encode_varint (List.length [v1]) ++ (F0 ++ []) ++ Brest),
                  some (kindOf remapped v1 % 16))
            rw [haux2]
            simp [List.append_assoc]

theorem packValues_none_iff (vals : List (List ℕ)) (remapped : List Loc)
    (scale : ℕ) :
    packValues vals remapped scale = none
      ↔ packValuesSpec vals remapped scale = none := by
  rw [packValues, packValuesSpec]
  cases haux : packValuesAux remapped scale vals ([], none) with
  | none =>
    rw [(packValuesAux_none_iff remapped scale vals _).mp haux]
  | some st =>
    cases hb : specValueBlocks remapped scale vals with
    | none =>
      exfalso
      rw [(packValuesAux_none_iff remapped scale vals ([], none)).mpr hb] at haux
      cases haux
    | some B =>
      obtain ⟨out, p⟩ := st
      cases p <;> exact iff_of_false (by simp) (by simp)

theorem packValues_perm (vals : List (List ℕ)) (remapped : List Loc)
    (scale : ℕ) (V W : List ℕ)
    (hV : packValues vals remapped scale = some V)
    (hW : packValuesSpec vals remapped scale = some W) : V.Perm W := by
  rw [packValues] at hV
  rw [packValuesSpec] at hW
  cases haux : packValuesAux remapped scale vals ([], none) with
  | none => rw [haux] at hV; cases hV
  | some st =>
    rw [haux] at hV
    cases hb : specValueBlocks remapped scale vals with
    | none => rw [hb] at hW; cases hW
    | some B =>
      rw [hb] at hW
      injection hW with hW
      cases hW
      obtain ⟨out, p⟩ := st
      have hperm := packValuesAux_perm remapped scale vals [] none out p B haux hb []
      have hperm2 : (out ++ nibblePackP p []).Perm
          (B ++ nibblePack (kindsOf vals remapped)) := by
        rw [← nibblePackP_none (kindsOf vals remapped)]
        simpa using hperm
      cases p with
      | none =>
        injection hV with hV
        cases hV
        simpa [nibblePackP] using hperm2
      | some q =>
        injection hV with hV
        cases hV
        simpa [nibblePackP] using hperm2

theorem packValues_eq_spec_of_le_one (vals : List (List ℕ))
    (remapped : List Loc) (scale : ℕ) (hlen : vals.flatten.length ≤ 1)
    (V W : List ℕ)
    (hV : packValues vals remapped scale = some V)
    (hW : packValuesSpec vals remapped scale = some W) : V = W := by
  rw [packValues] at hV
  rw [packValuesSpec] at hW
  cases hb : specValueBlocks remapped scale vals with
  | none => rw [hb] at hW; cases hW
  | some B =>
    rw [hb] at hW
    injection hW with hW
    cases hW
    cases hfl : vals.flatten with
    | nil =>
      obtain ⟨B2, hB2, haux⟩ := packValuesAux_no_values remapped scale vals [] none hfl
      rw [hb] at hB2
      injection hB2 with hB2
      cases hB2
      rw [haux] at hV
      injection hV with hV
      cases hV
      rw [show kindsOf vals remapped = [] by simp [kindsOf, hfl]]
      simp [nibblePack]
    | cons v tail =>
      cases tail with
      | nil =>
        have haux := packValuesAux_single_value remapped scale vals [] v hfl B hb
        rw [haux] at hV
        injection hV with hV
        cases hV
        rw [show kindsOf vals remapped = [kindOf remapped v] by simp [kindsOf, hfl]]
        simp [nibblePack]
      | cons v2 t2 =>
        exfalso
        rw [hfl] at hlen
        simp at hlen

/-- **C2, amended.** In the byte stream produced by `pack_trie`, each
completed kind byte is emitted inline immediately after its second value's
four numeric fields, interleaved within the per-node value blocks — *not* as
a contiguous trailing `kind_stream` section.  Because nibble packing is
order-preserving, the inline stream is a permutation of the trailing-section
layout (`pack_trie_spec`), both fail on exactly the same inputs, and the two
byte streams coincide whenever at most one value is emitted; in general
(three or more values) they differ, see the counterexample. -/
theorem C2_amended (locations : List Loc)
    (node_names city_names : List (List Char)) (t : Trie) (scale : ℕ) :
    (pack_trie locations node_names city_names t scale = none
      ↔ pack_trie_spec locations node_names city_names t scale = none) ∧
    (∀ b s, pack_trie locations node_names city_names t scale = some b →
      pack_trie_spec locations node_names city_names t scale = some s →
      b.Perm s ∧
        ((build_louds t).2.2.2.2.2.flatten.length ≤ 1 → b = s)) := by
  unfold pack_trie pack_trie_spec
  by_cases hs : 0xFFFFFF < scale
  · rw [if_pos hs, if_pos hs]
    refine ⟨Iff.rfl, ?_⟩
    intro b s hb
    cases hb
  · rw [if_neg hs, if_neg hs]
    constructor
    · cases hv : packValues (build_louds t).2.2.2.2.2
          (remapLocations locations (reindex_names node_names).2
            (reindex_names city_names).2) scale with
      | none =>
        rw [(packValues_none_iff _ _ _).mp hv]
      | some V =>
        cases hw : packValuesSpec (build_louds t).2.2.2.2.2
            (remapLocations locations (reindex_names node_names).2
              (reindex_names city_names).2) scale with
        | none =>
          exfalso
          rw [(packValues_none_iff _ _ _).mpr hw] at hv
          cases hv
        | some W => exact iff_of_false (by simp) (by simp)
    · intro b s hb hsp
      cases hv : packValues (build_louds t).2.2.2.2.2
          (remapLocations locations (reindex_names node_names).2
            (reindex_names city_names).2) scale with
      | none => rw [hv] at hb; cases hb
      | some V =>
        rw [hv] at hb
        cases hw : packValuesSpec (build_louds t).2.2.2.2.2
            (remapLocations locations (reindex_names node_names).2
              (reindex_names city_names).2) scale with
        | none => rw [hw] at hsp; cases hsp
        | some W =>
          rw [hw] at hsp
          injection hb with hb
          injection hsp with hsp
          cases hb
          cases hsp
          refine ⟨List.Perm.append_left _ (packValues_perm _ _ _ V W hv hw), ?_⟩
          intro hone
          rw [packValues_eq_spec_of_le_one _ _ _ hone V W hv hw]

theorem encodeCoord_zero_one : encodeCoord 0 1 = some [0, 0, 0] := by
  have h : (0 : ℚ) * ((1 : ℕ) : ℚ) = ((0 : ℤ) : ℚ) := by push_cast; ring
  rw [encodeCoord, h, pyRound_intCast, toBytes3LE, if_pos (by norm_num)]
  rfl

/-- The three-value counterexample payload: a single trie node holding the
three value indices `[0, 1, 2]`, whose location entries carry kind bytes 1,
2 and 3. -/
def cexTrie : Trie := .node (some [0, 1, 2]) .nil

/-- Locations of the counterexample payload. -/
def cexLocs : List Loc := [(0, 0, 0, 0, 1), (0, 0, 0, 0, 2), (0, 0, 0, 0, 3)]

theorem cex_louds : (build_louds cexTrie).2.2.2.2.2 = [[0, 1, 2]] := by
  simp [build_louds, loudsAux, sortedEdges, pySort, Edges.toList, Trie.edges,
    Trie.termList, cexTrie]

theorem cex_remap :
    remapLocations cexLocs (reindex_names [[]]).2 (reindex_names [[]]).2
      = cexLocs := rfl

theorem cex_fields (k : ℕ) :
    specFieldsLoc 1 (0, 0, 0, 0, k) = some [0, 0, 0, 0, 0, 0, 0, 0] := by
  show (match encodeCoord 0 1, encodeCoord 0 1 with
      | some lonB, some latB =>
        some (lonB ++ latB ++ encode_varint 0 ++ encode_varint 0)
      | _, _ => none) = some [0, 0, 0, 0, 0, 0, 0, 0]
  rw [encodeCoord_zero_one]
  rw [encode_varint_lt 0 (by norm_num)]
  rfl

theorem cex_src :
    packValues [[0, 1, 2]] cexLocs 1
      = some [3, 0, 0, 0, 0, 0, 0, 0, 0, 0, 0, 0, 0, 0, 0, 0, 0, 33,
          0, 0, 0, 0, 0, 0, 0, 0, 3] := by
  have h0 : ∀ st : List ℕ × Option ℕ, ∀ k : ℕ, packValueLoc 1 st (0, 0, 0, 0, k)
      = some (writeKindNibble (st.1 ++ [0, 0, 0, 0, 0, 0, 0, 0]) st.2 k) := by
    intro st k
    rw [packValueLoc_eq, cex_fields]
    rfl
  unfold packValues
  norm_num [cexLocs, h0, writeKindNibble, packNodeValues, packValuesAux,
    packValue, encode_varint_lt 3 (by norm_num)]

theorem cex_spec :
    packValuesSpec [[0, 1, 2]] cexLocs 1
      = some [3, 0, 0, 0, 0, 0, 0, 0, 0, 0, 0, 0, 0, 0, 0, 0, 0,
          0, 0, 0, 0, 0, 0, 0, 0, 33, 3] := by
  unfold packValuesSpec
  norm_num [cexLocs, cex_fields, nibblePack, kindsOf, kindOf, specValueBlocks,
    specFieldsList, specValueFields, encode_varint_lt 3 (by norm_num)]

/-- **C2, counterexample.** With three values in one node, the stream written
by `pack_trie` (kind bytes inline: the first completed kind byte `0x21`
appears immediately after the second value's fields, before the third
value's fields) differs from the spec's layout with a contiguous trailing
`kind_stream` section (`pack_trie_spec`). -/
theorem C2_counterexample :
    pack_trie cexLocs [[]] [[]] cexTrie 1
      ≠ pack_trie_spec cexLocs [[]] [[]] cexTrie 1 := by
  intro heq
  unfold pack_trie pack_trie_spec at heq
  rw [if_neg (by norm_num), if_neg (by norm_num), cex_louds, cex_remap] at heq
  simp only [cex_src, cex_spec] at heq
  injection heq with heq
  exact absurd (List.append_cancel_left heq) (by decide)

theorem empty_trie_louds : (build_louds Trie.empty).2.2.2.2.2 = [[]] := by
  simp [build_louds, loudsAux, sortedEdges, pySort, Edges.toList, Trie.edges,
    Trie.termList, Trie.empty]

theorem empty_trie_src : packValues [[]] ([] : List Loc) 1 = some [0] := by
  simp [packValues, packValuesAux, packNodeValues, encode_varint_lt]

theorem empty_trie_spec : packValuesSpec [[]] ([] : List Loc) 1 = some [0] := by
  simp [packValuesSpec, specValueBlocks, specFieldsList, nibblePack, kindsOf,
    encode_varint_lt]

/-- Witness for `C2_amended`: for the empty payload (one trie node, no
values) the inline stream and the trailing-section stream coincide, obtained
by applying `C2_amended` with its hypotheses discharged. -/
theorem C2_amended_witness :
    pack_trie [] [[]] [[]] Trie.empty 1 = pack_trie_spec [] [[]] [[]] Trie.empty 1 := by
  have hb : pack_trie [] [[]] [[]] Trie.empty 1
      = some (packHeader [[]] [[]] Trie.empty 1 ++ [0]) := by
    unfold pack_trie
    rw [if_neg (by norm_num), empty_trie_louds,
      show remapLocations [] (reindex_names [[]]).2 (reindex_names [[]]).2
        = ([] : List Loc) from rfl]
    simp only [empty_trie_src]
  have hsp : pack_trie_spec [] [[]] [[]] Trie.empty 1
      = some (packHeader [[]] [[]] Trie.empty 1 ++ [0]) := by
    unfold pack_trie_spec
    rw [if_neg (by norm_num), empty_trie_louds,
      show remapLocations [] (reindex_names [[]]).2 (reindex_names [[]]).2
        = ([] : List Loc) from rfl]
    simp only [empty_trie_spec]
  have h := ((C2_amended [] [[]] [[]] Trie.empty 1).2 _ _ hb hsp).2
    (by rw [empty_trie_louds]; simp)
  exact hb.trans (h ▸ hsp.symm)

end StreetDB
